import Mathlib

/-!
# Verification of the Ising model core (jl-wynen/ising, n-dimensional variant)

This file gives a shallow embedding in Lean 4 of the core of the Ising
Monte-Carlo program: the lattice index arithmetic and neighbour list
(src/n-dimensional/src/lattice.cpp), the distance map, the spin configuration
(src/n-dimensional/src/configuration.hpp), the energy functions
(src/n-dimensional/ising.hpp) and the Metropolis-Hastings sweep driver
(src/n-dimensional/src/montecarlo.cpp), together with theorems settling the
specification claims about them.

Machine integers of the source (`size_t` behind the strong typedef `Index`,
`int` for spins and distances) are modelled as `Nat` / `Int`; all quantities
that the source computes in `double` are modelled in exact real arithmetic
over `ℝ` (rationals `ℚ` for the distance-map cutoff, where the comparison
against a square root is replaced by the equivalent rational comparison,
proved equivalent below).
-/

/-- `MultiIndex` of the source: one coordinate per dimension, most significant
first (`std::vector<Index>`). -/
abbrev MultiIndex := List ℕ

/-- `latticeSize` (lattice.cpp): product of the extents. -/
def latticeSize (shape : List ℕ) : ℕ := shape.prod

/-- `increment` (lattice.cpp) with an explicit carry flag.  The C++ loop walks
the positions from the last (fastest-varying) to the first, incrementing the
digit where it can; a digit that reaches its extent is reset to `0` and the
carry moves on.  Here the carry out of the tail drives the head digit. -/
def incrementC : List ℕ → List ℕ → List ℕ × Bool
  | c :: cs, s :: ss =>
    match incrementC cs ss with
    | (cs', true) => if c + 1 = s then (0 :: cs', true) else ((c + 1) :: cs', false)
    | (cs', false) => (c :: cs', false)
  | _, _ => ([], true)

/-- `increment` (lattice.cpp): advance a multi-index one step in row-major
order, wrapping around to all zeros after the last index. -/
def increment (index shape : List ℕ) : List ℕ := (incrementC index shape).1

/-- `totalIndex` (lattice.hpp): flat row-major index of a multi-index,
`total = index[0]; for i in [1,ndim): total = total*shape[i] + index[i]`. -/
def totalIndex : List ℕ → List ℕ → ℕ
  | i0 :: is, _ :: ss => (is.zip ss).foldl (fun t p => t * p.2 + p.1) i0
  | _, _ => 0

/-- `incrementedAt` (lattice.cpp): increment one coordinate with periodic
wraparound. -/
def incrementedAt (index : List ℕ) (pos : ℕ) (shape : List ℕ) : List ℕ :=
  if index.getD pos 0 = shape.getD pos 1 - 1 then index.set pos 0
  else index.set pos (index.getD pos 0 + 1)

/-- `decrementedAt` (lattice.cpp): decrement one coordinate with periodic
wraparound. -/
def decrementedAt (index : List ℕ) (pos : ℕ) (shape : List ℕ) : List ℕ :=
  if index.getD pos 0 = 0 then index.set pos (shape.getD pos 1 - 1)
  else index.set pos (index.getD pos 0 - 1)

/-- Mixed-radix decomposition of a flat index (most significant digit first).
Not itself in the source: it is the closed form of iterating `increment` from
the all-zero multi-index, proved below (`iterate_increment_fromFlat`). -/
def fromFlat : ℕ → List ℕ → List ℕ
  | _, [] => []
  | n, s :: ss => (n / latticeSize ss) % s :: fromFlat (n % latticeSize ss) ss

/-- The `2·ndim` neighbour entries of one site (body of the loop over `d` in
`makeNeighbourList`, lattice.cpp): per dimension the incremented, then the
decremented site. -/
def neighbourRow (shape index : List ℕ) : List ℕ :=
  (List.range shape.length).flatMap fun d =>
    [totalIndex (incrementedAt index d shape) shape,
     totalIndex (decrementedAt index d shape) shape]

/-- The loop over sites in `makeNeighbourList` (lattice.cpp): `fuel` remaining
sites, starting at multi-index `index`. -/
def neighbourRows (shape : List ℕ) : ℕ → List ℕ → List ℕ
  | 0, _ => []
  | n + 1, index => neighbourRow shape index ++ neighbourRows shape n (increment index shape)

/-- `makeNeighbourList` (lattice.cpp): flat list of `2·ndim·size` neighbour
indices, built in row-major site order starting from the all-zero index. -/
def makeNeighbourList (shape : List ℕ) : List ℕ :=
  neighbourRows shape (latticeSize shape) (List.replicate shape.length 0)

/-- `Lattice::neighbour` (lattice.hpp): entry `2·ndim·site + neigh` of the
neighbour list. -/
def neighbour (shape : List ℕ) (site neigh : ℕ) : ℕ :=
  (makeNeighbourList shape).getD (2 * shape.length * site + neigh) 0

/-- The neighbour slot paired with slot `k` by periodicity: `2d ↔ 2d+1`. -/
def mate (k : ℕ) : ℕ := if k % 2 = 0 then k + 1 else k - 1

/-- `Parameters` (ising.hpp): dimensionless couplings `J/kT` and `h/kT`. -/
structure Parameters where
  JT : ℝ
  hT : ℝ

/-- A `Configuration` (configuration.hpp) is a flat vector of spins; spins are
`int` in the source (`Spin = ArithmeticType<int, SpinTag>`). -/
abbrev Configuration := List ℤ

/-- `Configuration::Configuration` (configuration.hpp): fill every site with
the initial spin; throws (`none`) unless the initial spin is `±1`. -/
def mkConfiguration (size : ℕ) (initial : ℤ) : Option Configuration :=
  if initial = 1 ∨ initial = -1 then some (List.replicate size initial) else none

/-- `Configuration::flip` (configuration.hpp): `cfg[idx] = cfg[idx] * Spin(-1)`.
(Named with the namespace since root `flip` exists in core Lean.) -/
def Configuration.flip (cfg : Configuration) (idx : ℕ) : Configuration :=
  cfg.set idx (cfg.getD idx 0 * (-1))

/-- `sumOfNeighbours` (ising.hpp): sum the spins of the `2·ndim` neighbours of
`site`. -/
def sumOfNeighbours (cfg : Configuration) (site : ℕ) (shape : List ℕ) : ℤ :=
  ((List.range (2 * shape.length)).map fun k => cfg.getD (neighbour shape site k) 0).sum

/-- The integer coupling accumulator of `hamiltonian` (ising.hpp):
`Σ_i cfg[i] · sumOfNeighbours(cfg, i)`. -/
def couplingSum (cfg : Configuration) (shape : List ℕ) : ℤ :=
  ((List.range (latticeSize shape)).map fun i => cfg.getD i 0 * sumOfNeighbours cfg i shape).sum

/-- The integer magnetisation accumulator of `hamiltonian` (ising.hpp):
`Σ_i cfg[i]`. -/
def magnSum (cfg : Configuration) (shape : List ℕ) : ℤ :=
  ((List.range (latticeSize shape)).map fun i => cfg.getD i 0).sum

/-- `hamiltonian` (ising.hpp): `-J/kT · coupling/2 - h/kT · magn`. -/
noncomputable def hamiltonian (cfg : Configuration) (params : Parameters) (shape : List ℕ) : ℝ :=
  -params.JT * (couplingSum cfg shape : ℝ) / 2 - params.hT * (magnSum cfg shape : ℝ)

/-- `deltaE` (ising.hpp): `2 · cfg[site] · (J/kT · Σ_{neighbours} + h/kT)`. -/
noncomputable def deltaE (cfg : Configuration) (site : ℕ) (params : Parameters) (shape : List ℕ) : ℝ :=
  2 * (cfg.getD site 0 : ℝ) * (params.JT * (sumOfNeighbours cfg site shape : ℝ) + params.hT)

/-- `magnetisation` (ising.hpp): average spin. -/
noncomputable def magnetisation (cfg : Configuration) : ℝ :=
  (cfg.sum : ℝ) / (cfg.length : ℝ)

/-! ## Distance map (lattice.cpp)

The cutoff `maxDist` is a `double` in the source and the filter is
`std::sqrt(dist) < maxDist`.  We model the cutoff as a rational and use the
equivalent rational comparison `0 < maxDist ∧ dist < maxDist²`; the
equivalence with the real square-root comparison is proved in
`belowMax_iff_sqrt_lt`. -/

/-- `Lattice::DistanceFn` (lattice.hpp). -/
inductive DistanceFn where
  | euclidean
  | manhattan

/-- `mindist1d` (lattice.cpp): minimum-image distance along one dimension,
`min(forward, nx - forward)` with `forward = (nx + x1 - x0) % nx`. -/
def mindist1d (x0 x1 nx : ℕ) : ℕ :=
  min ((nx + x1 - x0) % nx) (nx - (nx + x1 - x0) % nx)

/-- `sqEuclidean` (lattice.cpp). -/
def sqEuclidean (individual : List ℕ) : ℕ := (individual.map fun d => d * d).sum

/-- `sqManhattan` (lattice.cpp). -/
def sqManhattan (individual : List ℕ) : ℕ := individual.sum * individual.sum

/-- `sqMindist` (lattice.cpp): per-dimension minimum-image distances combined
by the chosen metric. -/
def sqMindist (site0 site1 shape : List ℕ) (distfn : DistanceFn) : ℕ :=
  let individual := (List.range shape.length).map fun dim =>
    mindist1d (site0.getD dim 0) (site1.getD dim 0) (shape.getD dim 1)
  match distfn with
  | DistanceFn.euclidean => sqEuclidean individual
  | DistanceFn.manhattan => sqManhattan individual

/-- The filter `std::sqrt(dist) < maxDist` of `buildDistMap` (lattice.cpp), as
the equivalent integer comparison on the cutoff's numerator and denominator
(`sqrt dist < maxDist ↔ 0 < maxDist ∧ dist·den² < num²`); the equivalence with
the real square-root comparison is `belowMax_iff_sqrt_lt` below. -/
def belowMax (dist : ℕ) (maxDist : ℚ) : Bool :=
  decide (0 < maxDist.num) &&
  decide ((dist : ℤ) * (maxDist.den : ℤ) * (maxDist.den : ℤ) < maxDist.num * maxDist.num)

/-- The inner loop of `buildDistMap` (lattice.cpp): `site1` walks from site
`j` for `fuel` steps; every pair below the cutoff contributes an entry
`(squared distance, (i, j))`. -/
def distLoopJ (shape : List ℕ) (distfn : DistanceFn) (maxDist : Option ℚ)
    (site0 : List ℕ) (i : ℕ) : ℕ → ℕ → List ℕ → List (ℕ × ℕ × ℕ)
  | 0, _, _ => []
  | fuel + 1, j, site1 =>
    let dist := sqMindist site0 site1 shape distfn
    (match maxDist with
     | some m => if belowMax dist m then [(dist, i, j)] else []
     | none => []) ++
    distLoopJ shape distfn maxDist site0 i fuel (j + 1) (increment site1 shape)

/-- The outer loop of `buildDistMap` (lattice.cpp): `site0` walks from site
`i` for `fuel` steps; for each, the inner loop starts at `j = i`,
`site1 = site0`. -/
def distLoopI (shape : List ℕ) (distfn : DistanceFn) (maxDist : Option ℚ) :
    ℕ → ℕ → List ℕ → List (ℕ × ℕ × ℕ)
  | 0, _, _ => []
  | fuel + 1, i, site0 =>
    distLoopJ shape distfn maxDist site0 i (latticeSize shape - i) i site0 ++
    distLoopI shape distfn maxDist fuel (i + 1) (increment site0 shape)

/-- `buildDistMap` (lattice.cpp) flattened to its insertion sequence: the
outer loop runs `i` over `[0, latsize-1)`, the inner over `j ∈ [i, latsize)`.
An `unordered_map` bucket is the subsequence of entries with its key, in
insertion order (`emplace_back`). -/
def distMapEntries (shape : List ℕ) (maxDist : Option ℚ) (distfn : DistanceFn) :
    List (ℕ × ℕ × ℕ) :=
  distLoopI shape distfn maxDist (latticeSize shape - 1) 0 (List.replicate shape.length 0)

/-- `Lattice::sqDistances` (lattice.hpp): the keys of the distance map, sorted
ascending. -/
def sqDistances (shape : List ℕ) (maxDist : Option ℚ) (distfn : DistanceFn) : List ℕ :=
  (((distMapEntries shape maxDist distfn).map fun e => e.1).dedup).mergeSort

/-- `Lattice::pairsWithSqDistance` (lattice.hpp): the bucket of one key of the
distance map, in insertion order. -/
def pairsWithSqDistance (shape : List ℕ) (maxDist : Option ℚ) (distfn : DistanceFn)
    (sqDistance : ℕ) : List (ℕ × ℕ) :=
  (distMapEntries shape maxDist distfn).filterMap fun e =>
    if e.1 = sqDistance then some e.2 else none


/-- The pair count `n` accumulated by the inner loop of `measureCorrelator`
(montecarlo.cpp): one increment per pair in the bucket of key `sqDistance`,
i.e. the bucket's length. -/
def correlatorPairCount (shape : List ℕ) (maxDist : Option ℚ) (distfn : DistanceFn)
    (sqDistance : ℕ) : ℕ :=
  (pairsWithSqDistance shape maxDist distfn sqDistance).length

/-- The squared minimum-image distance between two flat site indices: the
multi-indices the `buildDistMap` loops hold when `(i, j)` is reached are
`fromFlat i` and `fromFlat j` (proved via `iterate_increment_fromFlat`). -/
def sqMindistFlat (shape : List ℕ) (distfn : DistanceFn) (a b : ℕ) : ℕ :=
  sqMindist (fromFlat a shape) (fromFlat b shape) shape distfn

/-! ## Monte-Carlo engine (montecarlo.cpp)

`evolve` is modelled with an abstract random generator: a state type `σ` and
draw functions `genIdx : σ → ℕ × σ` (the site draw `rng.genIndex()`) and
`genReal : σ → ℝ × σ` (`rng.genReal()`), each returning the drawn value and
the advanced generator state.  The observables sink and the extra-measurement
callbacks of the source only read the configuration and energy (`measure`
takes them by const reference / value and only appends to its own storage),
so they cannot influence the returned triple and are not modelled. -/

/-- The mutable state of the sweep loops of `evolve` (montecarlo.cpp). -/
structure McState (σ : Type) where
  cfg : Configuration
  energy : ℝ
  naccept : ℕ
  rng : σ

open Classical in
/-- One single-spin-flip attempt (body of the `step` loop of `evolve`,
montecarlo.cpp): draw a site, compute `delta`, and accept via the
short-circuited test `delta ≤ 0 or exp(-delta) > rng.genReal()` — `genReal`
is drawn only when `delta > 0`. -/
noncomputable def mcStep {σ : Type} (params : Parameters) (shape : List ℕ)
    (genIdx : σ → ℕ × σ) (genReal : σ → ℝ × σ) (st : McState σ) : McState σ :=
  let site := (genIdx st.rng).1
  let r1 := (genIdx st.rng).2
  let delta := deltaE st.cfg site params shape
  if delta ≤ 0 then
    ⟨Configuration.flip st.cfg site, st.energy + delta, st.naccept + 1, r1⟩
  else
    let u := (genReal r1).1
    let r2 := (genReal r1).2
    if Real.exp (-delta) > u then
      ⟨Configuration.flip st.cfg site, st.energy + delta, st.naccept + 1, r2⟩
    else
      ⟨st.cfg, st.energy, st.naccept, r2⟩

/-- One sweep of `evolve` (montecarlo.cpp): `size(lat)` single-spin-flip
attempts. -/
noncomputable def mcSweep {σ : Type} (params : Parameters) (shape : List ℕ)
    (genIdx : σ → ℕ × σ) (genReal : σ → ℝ × σ) (st : McState σ) : McState σ :=
  (mcStep params shape genIdx genReal)^[latticeSize shape] st

/-- The full sweep loop of `evolve` (montecarlo.cpp): `nsweep` sweeps. -/
noncomputable def evolveState {σ : Type} (params : Parameters) (shape : List ℕ)
    (genIdx : σ → ℕ × σ) (genReal : σ → ℝ × σ) (nsweep : ℕ) (st : McState σ) : McState σ :=
  (mcSweep params shape genIdx genReal)^[nsweep] st

/-- One `double` division of the acceptance-rate computation: a finite real
result exists only when the divisor is nonzero — for a finite dividend,
`0.0/0.0` is NaN and `x/0.0` is ±infinity, neither a real number, modelled as
`none`. -/
noncomputable def divFin (x y : ℝ) : Option ℝ :=
  if y = 0 then none else some (x / y)

/-- `evolve` (montecarlo.cpp): returns the final configuration, the final
running energy, and the acceptance rate `naccept / nsweep / size(lat)`
(computed in `double`: at `nsweep = 0` — where `naccept = 0` — or on an empty
lattice it is NaN/infinite, hence `none`). -/
noncomputable def evolve {σ : Type} (cfg : Configuration) (energy : ℝ)
    (params : Parameters) (shape : List ℕ)
    (genIdx : σ → ℕ × σ) (genReal : σ → ℝ × σ) (rng : σ) (nsweep : ℕ) :
    Configuration × ℝ × Option ℝ :=
  let fin := evolveState params shape genIdx genReal nsweep ⟨cfg, energy, 0, rng⟩
  (fin.cfg, fin.energy,
    (divFin (fin.naccept : ℝ) (nsweep : ℝ)).bind fun t => divFin t (latticeSize shape : ℝ))

/-! ## Rng (spec model)

The n-dimensional build's `rng.hpp` (the one included by montecarlo.hpp and
exercised by the tests through `setLatsize`) is not among the provided source
files — `src/cpp/dim-n/rng.hpp` is an earlier revision without `setLatsize`,
although `src/cpp/dim-n/test/rng.cpp` already tests it.  The adjustable bound
is therefore modelled from the spec. -/

/-- Modelled from the spec: the Rng of §4.3/§3 — "Holds: a seeded
pseudo-random bit generator, and an adjustable inclusive-exclusive range for
site-index draws".  The underlying `std::mt19937` is abstracted to a state
`gen : ℕ` advanced by an arbitrary engine function. -/
structure RngState where
  gen : ℕ
  latsize : ℕ

/-- Modelled from the spec: one raw draw of the underlying generator —
`engine` maps a generator state to the raw output and the successor state. -/
def rawDraw (engine : ℕ → ℕ × ℕ) (r : RngState) : ℕ × RngState :=
  ((engine r.gen).1, ⟨(engine r.gen).2, r.latsize⟩)

/-- Modelled from the spec: `genIndex()` — a site index in `[0, latsize)`
computed from the raw draw and the current bound; advances the generator. -/
def genIndexM (engine : ℕ → ℕ × ℕ) (r : RngState) : ℕ × RngState :=
  ((rawDraw engine r).1 % r.latsize, (rawDraw engine r).2)

/-- Modelled from the spec: `genReal()` — returns the raw draw (standing for
the uniform real) and advances the generator; the bound plays no role. -/
def genRealM (engine : ℕ → ℕ × ℕ) (r : RngState) : ℕ × RngState :=
  rawDraw engine r

/-- Modelled from the spec: `genSpin()` — a uniform choice of `{-1,+1}` from
the raw draw; advances the generator; the bound plays no role. -/
def genSpinM (engine : ℕ → ℕ × ℕ) (r : RngState) : ℤ × RngState :=
  (if (rawDraw engine r).1 % 2 = 0 then -1 else 1, (rawDraw engine r).2)

/-- Modelled from the spec: `setLatticeSize` / `setLatsize` — "changes only
the bound used by `genIndex`". -/
def setLatsize (r : RngState) (n : ℕ) : RngState :=
  ⟨r.gen, n⟩

/-- The three draw operations of the Rng interface. -/
inductive RngOp where
  | genIndex
  | genReal
  | genSpin

/-- Run one draw operation, returning the output as an integer. -/
def runOp (engine : ℕ → ℕ × ℕ) : RngOp → RngState → ℤ × RngState
  | RngOp.genIndex, r => (((genIndexM engine r).1 : ℤ), (genIndexM engine r).2)
  | RngOp.genReal, r => (((genRealM engine r).1 : ℤ), (genRealM engine r).2)
  | RngOp.genSpin, r => genSpinM engine r

/-- Run a sequence of draw operations, collecting the outputs. -/
def runOps (engine : ℕ → ℕ × ℕ) : List RngOp → RngState → List ℤ × RngState
  | [], r => ([], r)
  | op :: ops, r =>
    ((runOp engine op r).1 :: (runOps engine ops (runOp engine op r).2).1,
     (runOps engine ops (runOp engine op r).2).2)

/-! ## Concrete data for the test scenarios -/

/-- The checkerboard configuration of the spec's §8 scenario, `+,-,+,-,+,-,+,-,+`
in row-major order on the 3×3 lattice. -/
def chk33 : Configuration := [1, -1, 1, -1, 1, -1, 1, -1, 1]

/-- The checkerboard configuration the test actually builds
(test/ising.cpp, Manual 1: fill with `+1`, set every even site to `-1`). -/
def chk33Test : Configuration := [-1, 1, -1, 1, -1, 1, -1, 1, -1]

/-! ## Lemmas: row-major index arithmetic -/

theorem latticeSize_cons (s : ℕ) (ss : List ℕ) :
    latticeSize (s :: ss) = s * latticeSize ss := by
  simp [latticeSize]

theorem latticeSize_pos {ss : List ℕ} (h : ∀ s ∈ ss, 1 ≤ s) : 0 < latticeSize ss := by
  induction ss with
  | nil => simp [latticeSize]
  | cons s ss ih =>
    rw [latticeSize_cons]
    exact Nat.mul_pos (h s (by simp)) (ih fun t ht => h t (by simp [ht]))

theorem fromFlat_length (n : ℕ) (ss : List ℕ) : (fromFlat n ss).length = ss.length := by
  induction ss generalizing n with
  | nil => rfl
  | cons s ss ih => simp [fromFlat, ih]

theorem fromFlat_mod (n : ℕ) (ss : List ℕ) :
    fromFlat (n % latticeSize ss) ss = fromFlat n ss := by
  cases ss with
  | nil => rfl
  | cons s ss =>
    rw [fromFlat, fromFlat, latticeSize_cons]
    have h1 : n % (s * latticeSize ss) / latticeSize ss = n / latticeSize ss % s := by
      rw [Nat.mul_comm s (latticeSize ss)]
      exact Nat.mod_mul_right_div_self n (latticeSize ss) s
    have h2 : n % (s * latticeSize ss) % latticeSize ss = n % latticeSize ss :=
      Nat.mod_mod_of_dvd n (dvd_mul_left (latticeSize ss) s)
    rw [h1, h2, Nat.mod_mod_of_dvd _ dvd_rfl]

theorem fromFlat_zero (ss : List ℕ) : fromFlat 0 ss = List.replicate ss.length 0 := by
  induction ss with
  | nil => rfl
  | cons s ss ih => simp [fromFlat, ih, List.replicate_succ]

theorem fromFlat_forall₂ {ss : List ℕ} (h : ∀ s ∈ ss, 1 ≤ s) (n : ℕ) :
    List.Forall₂ (· < ·) (fromFlat n ss) ss := by
  induction ss generalizing n with
  | nil => exact List.Forall₂.nil
  | cons s ss ih =>
    rw [fromFlat, List.forall₂_cons]
    exact ⟨Nat.mod_lt _ (h s (by simp)), ih (fun t ht => h t (by simp [ht])) _⟩

theorem totalIndex_foldl (m : List ℕ) : ∀ (ss : List ℕ) (a : ℕ), m.length = ss.length →
    (m.zip ss).foldl (fun t p => t * p.2 + p.1) a = a * latticeSize ss + totalIndex m ss := by
  induction m with
  | nil =>
    intro ss a h
    cases ss with
    | nil => simp [totalIndex, latticeSize]
    | cons s ss => simp at h
  | cons c m ih =>
    intro ss a h
    cases ss with
    | nil => simp at h
    | cons s ss =>
      have h' : m.length = ss.length := by simpa using h
      have hc : totalIndex (c :: m) (s :: ss) = c * latticeSize ss + totalIndex m ss := by
        rw [totalIndex, ih ss c h']
      simp only [List.zip_cons_cons, List.foldl_cons]
      rw [ih ss (a * s + c) h', hc, latticeSize_cons]
      ring

theorem totalIndex_cons (c : ℕ) (m : List ℕ) (s : ℕ) (ss : List ℕ)
    (h : m.length = ss.length) :
    totalIndex (c :: m) (s :: ss) = c * latticeSize ss + totalIndex m ss := by
  rw [totalIndex, totalIndex_foldl m ss c h]

theorem forall₂_length {m ss : List ℕ} (h : List.Forall₂ (· < ·) m ss) :
    m.length = ss.length := List.Forall₂.length_eq h

theorem totalIndex_lt {m ss : List ℕ} (h : List.Forall₂ (· < ·) m ss) :
    totalIndex m ss < latticeSize ss := by
  induction h with
  | nil => simp [totalIndex, latticeSize]
  | @cons c s m ss hcs hms ih =>
    rw [totalIndex_cons c m s ss (forall₂_length hms), latticeSize_cons]
    calc c * latticeSize ss + totalIndex m ss
        < c * latticeSize ss + latticeSize ss := by omega
      _ = (c + 1) * latticeSize ss := by ring
      _ ≤ s * latticeSize ss := Nat.mul_le_mul_right _ (by omega)

theorem totalIndex_fromFlat (n : ℕ) (ss : List ℕ) :
    totalIndex (fromFlat n ss) ss = n % latticeSize ss := by
  induction ss generalizing n with
  | nil => simp [fromFlat, totalIndex, latticeSize, Nat.mod_one]
  | cons s ss ih =>
    rw [fromFlat, totalIndex_cons _ _ _ _ (fromFlat_length _ _), ih, latticeSize_cons]
    rw [Nat.mod_mod_of_dvd _ dvd_rfl]
    have h1 : n % (s * latticeSize ss) / latticeSize ss = n / latticeSize ss % s := by
      rw [Nat.mul_comm s (latticeSize ss)]
      exact Nat.mod_mul_right_div_self n (latticeSize ss) s
    have h2 : n % (s * latticeSize ss) % latticeSize ss = n % latticeSize ss :=
      Nat.mod_mod_of_dvd n (dvd_mul_left (latticeSize ss) s)
    conv_rhs => rw [← Nat.div_add_mod (n % (s * latticeSize ss)) (latticeSize ss)]
    rw [h1, h2]
    ring

theorem fromFlat_totalIndex {m ss : List ℕ} (h : List.Forall₂ (· < ·) m ss) :
    fromFlat (totalIndex m ss) ss = m := by
  induction h with
  | nil => rfl
  | @cons c s m ss hcs hms ih =>
    have hlen := forall₂_length hms
    have hlt := totalIndex_lt hms
    rw [totalIndex_cons c m s ss hlen, fromFlat]
    have hdiv : (c * latticeSize ss + totalIndex m ss) / latticeSize ss = c := by
      rw [Nat.mul_comm, Nat.mul_add_div (by omega), Nat.div_eq_of_lt hlt, Nat.add_zero]
    have hmod : (c * latticeSize ss + totalIndex m ss) % latticeSize ss = totalIndex m ss := by
      rw [Nat.mul_comm, Nat.mul_add_mod, Nat.mod_eq_of_lt hlt]
    rw [hdiv, hmod, Nat.mod_eq_of_lt hcs, ih]

theorem incrementC_cons_true (c s : ℕ) (cs ss cs' : List ℕ)
    (h : incrementC cs ss = (cs', true)) :
    incrementC (c :: cs) (s :: ss) =
      if c + 1 = s then (0 :: cs', true) else ((c + 1) :: cs', false) := by
  rw [incrementC, h]

theorem incrementC_cons_false (c s : ℕ) (cs ss cs' : List ℕ)
    (h : incrementC cs ss = (cs', false)) :
    incrementC (c :: cs) (s :: ss) = (c :: cs', false) := by
  rw [incrementC, h]

theorem incrementC_fromFlat {ss : List ℕ} (h : ∀ s ∈ ss, 1 ≤ s) (n : ℕ) :
    incrementC (fromFlat n ss) ss =
      (fromFlat (n + 1) ss, decide ((n + 1) % latticeSize ss = 0)) := by
  induction ss generalizing n with
  | nil =>
    show incrementC [] [] = ([], decide ((n + 1) % latticeSize [] = 0))
    simp [incrementC, latticeSize, Nat.mod_one]
  | cons s ss ih =>
    have hs : 1 ≤ s := h s (by simp)
    have hss : ∀ t ∈ ss, 1 ≤ t := fun t ht => h t (by simp [ht])
    have hL : 0 < latticeSize ss := latticeSize_pos hss
    have hmlt : n % latticeSize ss < latticeSize ss := Nat.mod_lt n hL
    have hsplit : latticeSize ss * (n / latticeSize ss) + n % latticeSize ss = n :=
      Nat.div_add_mod n (latticeSize ss)
    rw [fromFlat]
    by_cases hcar : (n + 1) % latticeSize ss = 0
    · -- the tail wraps around: n % L = L - 1
      have heq : n % latticeSize ss + 1 = latticeSize ss := by
        rcases Nat.lt_or_ge (n % latticeSize ss + 1) (latticeSize ss) with hlt | hge
        · have : (n + 1) % latticeSize ss = n % latticeSize ss + 1 := by
            rw [← Nat.mod_add_mod, Nat.mod_eq_of_lt hlt]
          omega
        · omega
      have hrec : incrementC (fromFlat (n % latticeSize ss) ss) ss =
          (fromFlat (n % latticeSize ss + 1) ss, true) := by
        rw [ih hss]; simp [Nat.mod_add_mod, hcar]
      have htail : fromFlat (n % latticeSize ss + 1) ss = fromFlat 0 ss := by
        rw [heq, ← fromFlat_mod (latticeSize ss) ss, Nat.mod_self]
      have hn1 : n + 1 = latticeSize ss * (n / latticeSize ss + 1) := by
        calc n + 1 = latticeSize ss * (n / latticeSize ss) + n % latticeSize ss + 1 := by
              rw [hsplit]
          _ = latticeSize ss * (n / latticeSize ss) + (n % latticeSize ss + 1) := by ring
          _ = latticeSize ss * (n / latticeSize ss) + latticeSize ss := by rw [heq]
          _ = latticeSize ss * (n / latticeSize ss + 1) := by ring
      have hdiv : (n + 1) / latticeSize ss = n / latticeSize ss + 1 := by
        rw [hn1]; exact Nat.mul_div_cancel_left _ hL
      rw [incrementC_cons_true _ _ _ _ _ hrec, htail]
      by_cases hc : n / latticeSize ss % s + 1 = s
      · -- the head digit also wraps
        have hhead : (n + 1) / latticeSize ss % s = 0 := by
          rw [hdiv, ← Nat.mod_add_mod, hc, Nat.mod_self]
        have hdvd : (n + 1) % latticeSize (s :: ss) = 0 := by
          obtain ⟨k, hk⟩ : s ∣ n / latticeSize ss + 1 := by
            refine Nat.dvd_of_mod_eq_zero ?_
            rw [← Nat.mod_add_mod, hc, Nat.mod_self]
          have hfac : n + 1 = s * latticeSize ss * k := by
            rw [hn1, hk]; ring
          rw [latticeSize_cons, hfac]
          exact Nat.mul_mod_right _ _
        rw [if_pos hc, fromFlat, hhead, hcar]
        rw [← fromFlat_mod 0 ss, Nat.zero_mod]
        simp [hdvd]
      · -- the head digit advances, no carry out
        have hlt' : n / latticeSize ss % s + 1 < s := by
          have := Nat.mod_lt (n / latticeSize ss) (show 0 < s by omega)
          omega
        have hhead : (n + 1) / latticeSize ss % s = n / latticeSize ss % s + 1 := by
          rw [hdiv, ← Nat.mod_add_mod, Nat.mod_eq_of_lt hlt']
        have hndvd : ¬(n + 1) % latticeSize (s :: ss) = 0 := by
          intro h0
          rw [latticeSize_cons] at h0
          obtain ⟨k, hk⟩ := Nat.dvd_of_mod_eq_zero h0
          have hsk : s ∣ n / latticeSize ss + 1 := by
            refine ⟨k, Nat.eq_of_mul_eq_mul_left hL ?_⟩
            rw [← hn1, hk]; ring
          obtain ⟨k2, hk2⟩ := hsk
          have h1 : (n / latticeSize ss + 1) % s = 0 := by
            rw [hk2]; exact Nat.mul_mod_right _ _
          rw [← Nat.mod_add_mod, Nat.mod_eq_of_lt hlt'] at h1
          omega
        rw [if_neg hc, fromFlat, hhead, hcar]
        rw [← fromFlat_mod 0 ss, Nat.zero_mod]
        simp [hndvd]
    · -- no carry out of the tail
      have hlt : n % latticeSize ss + 1 < latticeSize ss := by
        rcases Nat.lt_or_ge (n % latticeSize ss + 1) (latticeSize ss) with hlt | hge
        · exact hlt
        · exfalso
          have heq2 : n % latticeSize ss + 1 = latticeSize ss := by omega
          have : (n + 1) % latticeSize ss = 0 := by
            rw [← Nat.mod_add_mod, heq2, Nat.mod_self]
          exact hcar this
      have hrec : incrementC (fromFlat (n % latticeSize ss) ss) ss =
          (fromFlat (n % latticeSize ss + 1) ss, false) := by
        rw [ih hss]; simp [Nat.mod_add_mod, hcar]
      have hmod : (n + 1) % latticeSize ss = n % latticeSize ss + 1 := by
        rw [← Nat.mod_add_mod, Nat.mod_eq_of_lt hlt]
      have hdiv : (n + 1) / latticeSize ss = n / latticeSize ss := by
        conv_lhs => rw [← hsplit, Nat.add_assoc]
        rw [Nat.mul_add_div hL, Nat.div_eq_of_lt hlt, Nat.add_zero]
      have hndvd : ¬(n + 1) % latticeSize (s :: ss) = 0 := by
        intro h0
        rw [latticeSize_cons] at h0
        obtain ⟨k, hk⟩ : latticeSize ss ∣ n + 1 :=
          Dvd.dvd.trans (dvd_mul_left _ s) (Nat.dvd_of_mod_eq_zero h0)
        rw [hk, Nat.mul_mod_right] at hmod
        omega
      rw [incrementC_cons_false _ _ _ _ _ hrec, fromFlat, hmod, hdiv]
      simp [hndvd]

theorem increment_fromFlat {ss : List ℕ} (h : ∀ s ∈ ss, 1 ≤ s) (n : ℕ) :
    increment (fromFlat n ss) ss = fromFlat (n + 1) ss := by
  rw [increment, incrementC_fromFlat h]

theorem iterate_increment_fromFlat {ss : List ℕ} (h : ∀ s ∈ ss, 1 ≤ s) (n : ℕ) :
    (fun m => increment m ss)^[n] (List.replicate ss.length 0) = fromFlat n ss := by
  induction n with
  | zero => simp [fromFlat_zero]
  | succ n ih => rw [Function.iterate_succ_apply', ih, increment_fromFlat h]

theorem getD_set_self {l : List ℕ} {i : ℕ} (v : ℕ) (h : i < l.length) :
    (l.set i v).getD i 0 = v := by
  rw [List.getD_eq_getElem?_getD, List.getElem?_set_self (by omega)]
  rfl

theorem getD_set_ne {l : List ℕ} {i j : ℕ} (v : ℕ) (h : i ≠ j) :
    (l.set i v).getD j 0 = l.getD j 0 := by
  rw [List.getD_eq_getElem?_getD, List.getElem?_set_ne h, ← List.getD_eq_getElem?_getD]

theorem forall₂_getD {m ss : List ℕ} (h : List.Forall₂ (· < ·) m ss) {p : ℕ}
    (hp : p < ss.length) : m.getD p 0 < ss.getD p 0 := by
  induction h generalizing p with
  | nil => simp at hp
  | @cons c s m ss hcs hms ih =>
    cases p with
    | zero => simpa using hcs
    | succ p => simpa using ih (by simpa using hp)

theorem forall₂_set {m ss : List ℕ} (h : List.Forall₂ (· < ·) m ss) {p v : ℕ}
    (hv : v < ss.getD p 0) : List.Forall₂ (· < ·) (m.set p v) ss := by
  induction h generalizing p with
  | nil => exact List.Forall₂.nil
  | @cons c s m ss hcs hms ih =>
    cases p with
    | zero => exact List.forall₂_cons.mpr ⟨by simpa using hv, hms⟩
    | succ p =>
      rw [List.set_cons_succ]
      exact List.forall₂_cons.mpr ⟨hcs, ih (by simpa using hv)⟩

theorem getD_default_irrel {l : List ℕ} {p : ℕ} (h : p < l.length) (d d' : ℕ) :
    l.getD p d = l.getD p d' := by
  rw [List.getD_eq_getElem?_getD, List.getD_eq_getElem?_getD, List.getElem?_eq_getElem h]
  rfl

theorem set_getD_self (l : List ℕ) (i : ℕ) (v : ℕ) (h : l.getD i 0 = v) :
    l.set i v = l := by
  induction l generalizing i with
  | nil => rfl
  | cons a l ih =>
    cases i with
    | zero => simp at h; simp [h]
    | succ i => simp only [List.set_cons_succ]; rw [ih i (by simpa using h)]

theorem incrementedAt_forall₂ {m ss : List ℕ} (h : List.Forall₂ (· < ·) m ss) (d : ℕ) :
    List.Forall₂ (· < ·) (incrementedAt m d ss) ss := by
  rcases Nat.lt_or_ge d ss.length with hd | hd
  · have hcd : m.getD d 0 < ss.getD d 0 := forall₂_getD h hd
    rw [incrementedAt]
    split
    · exact forall₂_set h (by omega)
    · next hne =>
      refine forall₂_set h ?_
      rw [getD_default_irrel hd 1 0] at hne
      omega
  · have hlen : m.length = ss.length := forall₂_length h
    rw [incrementedAt, List.set_eq_of_length_le (by omega), List.set_eq_of_length_le (by omega)]
    split <;> exact h

theorem decrementedAt_forall₂ {m ss : List ℕ} (h : List.Forall₂ (· < ·) m ss) (d : ℕ) :
    List.Forall₂ (· < ·) (decrementedAt m d ss) ss := by
  rcases Nat.lt_or_ge d ss.length with hd | hd
  · have hcd : m.getD d 0 < ss.getD d 0 := forall₂_getD h hd
    rw [decrementedAt]
    split
    · refine forall₂_set h ?_
      rw [getD_default_irrel hd 1 0]
      omega
    · exact forall₂_set h (by omega)
  · have hlen : m.length = ss.length := forall₂_length h
    rw [decrementedAt, List.set_eq_of_length_le (by omega), List.set_eq_of_length_le (by omega)]
    split <;> exact h

theorem decrementedAt_incrementedAt {m ss : List ℕ} (h : List.Forall₂ (· < ·) m ss)
    {d : ℕ} (hd : d < ss.length) :
    decrementedAt (incrementedAt m d ss) d ss = m := by
  have hlen : m.length = ss.length := forall₂_length h
  have hcd : m.getD d 0 < ss.getD d 0 := forall₂_getD h hd
  have hs1 : ss.getD d 1 = ss.getD d 0 := getD_default_irrel hd 1 0
  rw [incrementedAt]
  by_cases hmax : m.getD d 0 = ss.getD d 1 - 1
  · rw [if_pos hmax, decrementedAt, getD_set_self 0 (by omega), if_pos rfl, List.set_set]
    exact set_getD_self m d _ (by omega)
  · rw [if_neg hmax, decrementedAt, getD_set_self _ (by omega),
      if_neg (by omega), List.set_set]
    exact set_getD_self m d _ (by omega)

theorem incrementedAt_decrementedAt {m ss : List ℕ} (h : List.Forall₂ (· < ·) m ss)
    {d : ℕ} (hd : d < ss.length) :
    incrementedAt (decrementedAt m d ss) d ss = m := by
  have hlen : m.length = ss.length := forall₂_length h
  have hcd : m.getD d 0 < ss.getD d 0 := forall₂_getD h hd
  have hs1 : ss.getD d 1 = ss.getD d 0 := getD_default_irrel hd 1 0
  rw [decrementedAt]
  by_cases hz : m.getD d 0 = 0
  · rw [if_pos hz, incrementedAt, getD_set_self _ (by omega), if_pos rfl, List.set_set]
    exact set_getD_self m d _ (by omega)
  · rw [if_neg hz, incrementedAt, getD_set_self _ (by omega),
      if_neg (by omega), List.set_set]
    exact set_getD_self m d _ (by omega)

theorem flatMap_pairs_getD (f g : ℕ → ℕ) : ∀ (n d δ : ℕ), d < n → δ < 2 →
    (((List.range n).flatMap fun k => [f k, g k]).getD (2 * d + δ) 0
      = if δ = 0 then f d else g d) := by
  intro n
  induction n generalizing f g with
  | zero => intro d δ hd hδ; omega
  | succ n ih =>
    intro d δ hd hδ
    rw [List.range_succ_eq_map, List.flatMap_cons, List.flatMap_map]
    cases d with
    | zero =>
      interval_cases δ
      · rfl
      · rfl
    | succ d =>
      have hidx : 2 * (d + 1) + δ = [f 0, g 0].length + (2 * d + δ) := by
        simp; omega
      rw [hidx, List.getD_append_right _ _ _ _ (by omega), Nat.add_sub_cancel_left]
      have := ih (fun k => f (k + 1)) (fun k => g (k + 1)) d δ (by omega) hδ
      simpa [Function.comp] using this

theorem neighbourRow_length (shape index : List ℕ) :
    (neighbourRow shape index).length = 2 * shape.length := by
  rw [neighbourRow, List.length_flatMap]
  have : (List.map (List.length ∘ fun d =>
      [totalIndex (incrementedAt index d shape) shape,
       totalIndex (decrementedAt index d shape) shape]) (List.range shape.length))
      = List.replicate shape.length 2 := by
    rw [List.eq_replicate_iff]
    constructor
    · simp
    · intro b hb
      simp only [List.mem_map] at hb
      obtain ⟨d, _, hd⟩ := hb
      simp [← hd, Function.comp]
  rw [this, List.sum_replicate, smul_eq_mul]
  omega

theorem neighbourRow_getD (shape index : List ℕ) {d δ : ℕ} (hd : d < shape.length)
    (hδ : δ < 2) :
    (neighbourRow shape index).getD (2 * d + δ) 0 =
      if δ = 0 then totalIndex (incrementedAt index d shape) shape
      else totalIndex (decrementedAt index d shape) shape := by
  rw [neighbourRow, flatMap_pairs_getD _ _ _ _ _ hd hδ]

theorem neighbourRows_getD (shape : List ℕ) :
    ∀ (fuel q : ℕ) (index : List ℕ) (k : ℕ), q < fuel → k < 2 * shape.length →
    (neighbourRows shape fuel index).getD (2 * shape.length * q + k) 0 =
      (neighbourRow shape ((fun m => increment m shape)^[q] index)).getD k 0 := by
  intro fuel
  induction fuel with
  | zero => intro q index k hq hk; omega
  | succ fuel ih =>
    intro q index k hq hk
    rw [neighbourRows]
    cases q with
    | zero =>
      rw [Nat.mul_zero, Nat.zero_add]
      rw [List.getD_append _ _ _ _ (by rw [neighbourRow_length]; omega)]
      rfl
    | succ q =>
      have hidx : 2 * shape.length * (q + 1) + k
          = (neighbourRow shape index).length + (2 * shape.length * q + k) := by
        rw [neighbourRow_length]; ring
      rw [hidx, List.getD_append_right _ _ _ _ (by omega), Nat.add_sub_cancel_left]
      rw [ih q (increment index shape) k (by omega) hk, Function.iterate_succ_apply]

theorem neighbour_eq {shape : List ℕ} (hpos : ∀ s ∈ shape, 1 ≤ s) {site k : ℕ}
    (hsite : site < latticeSize shape) (hk : k < 2 * shape.length) :
    neighbour shape site k =
      if k % 2 = 0 then totalIndex (incrementedAt (fromFlat site shape) (k / 2) shape) shape
      else totalIndex (decrementedAt (fromFlat site shape) (k / 2) shape) shape := by
  have hsplitk : 2 * (k / 2) + k % 2 = k := by omega
  rw [neighbour, makeNeighbourList, ← hsplitk,
    neighbourRows_getD shape (latticeSize shape) site _ _ hsite (by omega),
    iterate_increment_fromFlat hpos,
    neighbourRow_getD shape _ (by omega) (by omega), hsplitk]

theorem neighbour_lt {shape : List ℕ} (hpos : ∀ s ∈ shape, 1 ≤ s) {site k : ℕ}
    (hsite : site < latticeSize shape) (hk : k < 2 * shape.length) :
    neighbour shape site k < latticeSize shape := by
  rw [neighbour_eq hpos hsite hk]
  split
  · exact totalIndex_lt (incrementedAt_forall₂ (fromFlat_forall₂ hpos site) _)
  · exact totalIndex_lt (decrementedAt_forall₂ (fromFlat_forall₂ hpos site) _)

theorem mate_lt {k n : ℕ} (hk : k < 2 * n) : mate k < 2 * n := by
  rw [mate]; split <;> omega

theorem neighbour_mate {shape : List ℕ} (hpos : ∀ s ∈ shape, 1 ≤ s) {site k : ℕ}
    (hsite : site < latticeSize shape) (hk : k < 2 * shape.length) :
    neighbour shape (neighbour shape site k) (mate k) = site := by
  have hm := fromFlat_forall₂ hpos site
  have hd : k / 2 < shape.length := by omega
  by_cases hpar : k % 2 = 0
  · have h1 : neighbour shape site k
        = totalIndex (incrementedAt (fromFlat site shape) (k / 2) shape) shape := by
      rw [neighbour_eq hpos hsite hk, if_pos hpar]
    have hj2 := incrementedAt_forall₂ hm (k / 2)
    have hjlt : neighbour shape site k < latticeSize shape := by
      rw [h1]; exact totalIndex_lt hj2
    have hjff : fromFlat (neighbour shape site k) shape
        = incrementedAt (fromFlat site shape) (k / 2) shape := by
      rw [h1]; exact fromFlat_totalIndex hj2
    have hmate : mate k = k + 1 := by rw [mate, if_pos hpar]
    rw [hmate, neighbour_eq hpos hjlt (by omega), if_neg (by omega),
      show (k + 1) / 2 = k / 2 by omega, hjff, decrementedAt_incrementedAt hm hd,
      totalIndex_fromFlat, Nat.mod_eq_of_lt hsite]
  · have h1 : neighbour shape site k
        = totalIndex (decrementedAt (fromFlat site shape) (k / 2) shape) shape := by
      rw [neighbour_eq hpos hsite hk, if_neg hpar]
    have hj2 := decrementedAt_forall₂ hm (k / 2)
    have hjlt : neighbour shape site k < latticeSize shape := by
      rw [h1]; exact totalIndex_lt hj2
    have hjff : fromFlat (neighbour shape site k) shape
        = decrementedAt (fromFlat site shape) (k / 2) shape := by
      rw [h1]; exact fromFlat_totalIndex hj2
    have hmate : mate k = k - 1 := by rw [mate, if_neg hpar]
    rw [hmate, neighbour_eq hpos hjlt (by omega), if_pos (by omega),
      show (k - 1) / 2 = k / 2 by omega, hjff, incrementedAt_decrementedAt hm hd,
      totalIndex_fromFlat, Nat.mod_eq_of_lt hsite]

theorem incrementedAt_getD {m : List ℕ} {d : ℕ} (ss : List ℕ) (hd : d < m.length) :
    (incrementedAt m d ss).getD d 0 =
      if m.getD d 0 = ss.getD d 1 - 1 then 0 else m.getD d 0 + 1 := by
  rw [incrementedAt]
  split
  · exact getD_set_self _ hd
  · exact getD_set_self _ hd

theorem decrementedAt_getD {m : List ℕ} {d : ℕ} (ss : List ℕ) (hd : d < m.length) :
    (decrementedAt m d ss).getD d 0 =
      if m.getD d 0 = 0 then ss.getD d 1 - 1 else m.getD d 0 - 1 := by
  rw [decrementedAt]
  split
  · exact getD_set_self _ hd
  · exact getD_set_self _ hd

theorem shape_getD_ge {shape : List ℕ} {c : ℕ} (h : ∀ s ∈ shape, c ≤ s) {d : ℕ}
    (hd : d < shape.length) : c ≤ shape.getD d 0 := by
  rw [List.getD_eq_getElem _ _ hd]
  exact h _ (List.getElem_mem hd)

theorem neighbour_ne_self {shape : List ℕ} (h2 : ∀ s ∈ shape, 2 ≤ s) {site k : ℕ}
    (hsite : site < latticeSize shape) (hk : k < 2 * shape.length) :
    neighbour shape site k ≠ site := by
  have hpos : ∀ s ∈ shape, 1 ≤ s := fun s hs => le_trans (by omega) (h2 s hs)
  have hm := fromFlat_forall₂ hpos site
  have hd : k / 2 < shape.length := by omega
  have hdm : k / 2 < (fromFlat site shape).length := by rw [fromFlat_length]; omega
  have hs2 : 2 ≤ shape.getD (k / 2) 0 := shape_getD_ge h2 hd
  have hs1 : shape.getD (k / 2) 1 = shape.getD (k / 2) 0 := getD_default_irrel hd 1 0
  have hcd : (fromFlat site shape).getD (k / 2) 0 < shape.getD (k / 2) 0 :=
    forall₂_getD hm hd
  intro hcontra
  rw [neighbour_eq hpos hsite hk] at hcontra
  rcases ite_eq_iff.mp hcontra with ⟨hpar, hinc⟩ | ⟨hpar, hdec⟩
  · have hmm : incrementedAt (fromFlat site shape) (k / 2) shape = fromFlat site shape := by
      have := congrArg (fun n => fromFlat n shape) hinc
      simpa [fromFlat_totalIndex (incrementedAt_forall₂ hm (k / 2))] using this
    have hval : (incrementedAt (fromFlat site shape) (k / 2) shape).getD (k / 2) 0
        = (fromFlat site shape).getD (k / 2) 0 := by rw [hmm]
    rw [incrementedAt_getD shape hdm] at hval
    simp only [hs1] at hval
    split at hval <;> omega
  · have hmm : decrementedAt (fromFlat site shape) (k / 2) shape = fromFlat site shape := by
      have := congrArg (fun n => fromFlat n shape) hdec
      simpa [fromFlat_totalIndex (decrementedAt_forall₂ hm (k / 2))] using this
    have hval : (decrementedAt (fromFlat site shape) (k / 2) shape).getD (k / 2) 0
        = (fromFlat site shape).getD (k / 2) 0 := by rw [hmm]
    rw [decrementedAt_getD shape hdm] at hval
    simp only [hs1] at hval
    split at hval <;> omega

/-! ## Lemmas: energy functions -/

theorem list_range_map_sum (n : ℕ) (f : ℕ → ℤ) :
    ((List.range n).map f).sum = ∑ i ∈ Finset.range n, f i := by
  induction n with
  | zero => rfl
  | succ n ih =>
    rw [List.range_succ, List.map_append, List.sum_append, Finset.sum_range_succ, ih]
    simp

theorem listGetD_set_self {α : Type} {l : List α} {i : ℕ} (v d : α) (h : i < l.length) :
    (l.set i v).getD i d = v := by
  rw [List.getD_eq_getElem?_getD, List.getElem?_set_self (by omega)]
  rfl

theorem listGetD_set_ne {α : Type} {l : List α} {i j : ℕ} (v d : α) (h : i ≠ j) :
    (l.set i v).getD j d = l.getD j d := by
  rw [List.getD_eq_getElem?_getD, List.getElem?_set_ne h, ← List.getD_eq_getElem?_getD]

theorem flip_length (cfg : Configuration) (t : ℕ) :
    (Configuration.flip cfg t).length = cfg.length := by
  rw [Configuration.flip, List.length_set]

theorem flip_getD {cfg : Configuration} {t : ℕ} (ht : t < cfg.length) (j : ℕ) :
    (Configuration.flip cfg t).getD j 0 =
      if j = t then -(cfg.getD t 0) else cfg.getD j 0 := by
  rw [Configuration.flip]
  by_cases hj : j = t
  · subst hj
    rw [if_pos rfl, listGetD_set_self _ _ ht]
    ring
  · rw [if_neg hj, listGetD_set_ne _ _ (fun hc => hj hc.symm)]

theorem mate_mate {k : ℕ} : mate (mate k) = k := by
  rw [mate, mate]
  by_cases hp : k % 2 = 0
  · rw [if_pos hp, if_neg (by omega)]
    omega
  · rw [if_neg hp, if_pos (by omega)]
    omega

theorem sumOfNeighbours_eq_finset (cfg : Configuration) (site : ℕ) (shape : List ℕ) :
    sumOfNeighbours cfg site shape =
      ∑ k ∈ Finset.range (2 * shape.length), cfg.getD (neighbour shape site k) 0 := by
  rw [sumOfNeighbours, list_range_map_sum]

theorem couplingSum_eq_finset (cfg : Configuration) (shape : List ℕ) :
    couplingSum cfg shape =
      ∑ i ∈ Finset.range (latticeSize shape), cfg.getD i 0 * sumOfNeighbours cfg i shape := by
  rw [couplingSum, list_range_map_sum]

theorem magnSum_eq_finset (cfg : Configuration) (shape : List ℕ) :
    magnSum cfg shape = ∑ i ∈ Finset.range (latticeSize shape), cfg.getD i 0 := by
  rw [magnSum, list_range_map_sum]

theorem magnSum_flip {shape : List ℕ} {cfg : Configuration} {t : ℕ}
    (hlen : cfg.length = latticeSize shape) (ht : t < latticeSize shape) :
    magnSum (Configuration.flip cfg t) shape = magnSum cfg shape - 2 * cfg.getD t 0 := by
  have htl : t < cfg.length := by omega
  rw [magnSum_eq_finset, magnSum_eq_finset]
  have hsplit : ∀ i ∈ Finset.range (latticeSize shape),
      (Configuration.flip cfg t).getD i 0
        = cfg.getD i 0 + (if i = t then -2 * cfg.getD t 0 else 0) := by
    intro i _
    rw [flip_getD htl i]
    by_cases hi : i = t
    · subst hi; rw [if_pos rfl, if_pos rfl]; ring
    · rw [if_neg hi, if_neg hi]; ring
  rw [Finset.sum_congr rfl hsplit, Finset.sum_add_distrib, Finset.sum_ite_eq',
    if_pos (Finset.mem_range.mpr ht)]
  ring

theorem couplingSum_flip {shape : List ℕ} (h2 : ∀ s ∈ shape, 2 ≤ s) {cfg : Configuration}
    {t : ℕ} (hlen : cfg.length = latticeSize shape) (ht : t < latticeSize shape) :
    couplingSum (Configuration.flip cfg t) shape
      = couplingSum cfg shape - 4 * cfg.getD t 0 * sumOfNeighbours cfg t shape := by
  have hpos : ∀ s ∈ shape, 1 ≤ s := fun s hs => le_trans (by omega) (h2 s hs)
  have htl : t < cfg.length := by omega
  have hpointwise : ∀ i ∈ Finset.range (latticeSize shape),
      (Configuration.flip cfg t).getD i 0 * sumOfNeighbours (Configuration.flip cfg t) i shape
        = cfg.getD i 0 * sumOfNeighbours cfg i shape
          + (if i = t then -2 * cfg.getD t 0 * sumOfNeighbours cfg t shape else 0)
          + ∑ k ∈ Finset.range (2 * shape.length),
              (if neighbour shape i k = t then -2 * cfg.getD t 0 * cfg.getD i 0 else 0) := by
    intro i hi
    have hi' : i < latticeSize shape := Finset.mem_range.mp hi
    by_cases hit : i = t
    · subst hit
      rw [if_pos rfl]
      have hnb : ∀ k ∈ Finset.range (2 * shape.length),
          (Configuration.flip cfg i).getD (neighbour shape i k) 0
            = cfg.getD (neighbour shape i k) 0 := by
        intro k hk
        rw [flip_getD htl, if_neg (neighbour_ne_self h2 hi' (Finset.mem_range.mp hk))]
      have hzero : (∑ k ∈ Finset.range (2 * shape.length),
          (if neighbour shape i k = i then -2 * cfg.getD i 0 * cfg.getD i 0 else 0)) = 0 :=
        Finset.sum_eq_zero fun k hk => by
          rw [if_neg (neighbour_ne_self h2 hi' (Finset.mem_range.mp hk))]
      rw [hzero, sumOfNeighbours_eq_finset, sumOfNeighbours_eq_finset,
        Finset.sum_congr rfl hnb, flip_getD htl, if_pos rfl, ← sumOfNeighbours_eq_finset]
      ring
    · rw [if_neg hit]
      have hFi : (Configuration.flip cfg t).getD i 0 = cfg.getD i 0 := by
        rw [flip_getD htl, if_neg hit]
      have hsum : sumOfNeighbours (Configuration.flip cfg t) i shape
          = sumOfNeighbours cfg i shape
            + ∑ k ∈ Finset.range (2 * shape.length),
                (if neighbour shape i k = t then -2 * cfg.getD t 0 else 0) := by
        rw [sumOfNeighbours_eq_finset, sumOfNeighbours_eq_finset, ← Finset.sum_add_distrib]
        refine Finset.sum_congr rfl fun k hk => ?_
        rw [flip_getD htl]
        by_cases hnk : neighbour shape i k = t
        · rw [if_pos hnk, if_pos hnk, hnk]; ring
        · rw [if_neg hnk, if_neg hnk]; ring
      rw [hFi, hsum, mul_add, Finset.mul_sum, add_zero]
      congr 1
      refine Finset.sum_congr rfl fun k hk => ?_
      by_cases hnk : neighbour shape i k = t
      · rw [if_pos hnk, if_pos hnk]; ring
      · rw [if_neg hnk, if_neg hnk]; ring
  have hinner : ∀ k ∈ Finset.range (2 * shape.length),
      (∑ i ∈ Finset.range (latticeSize shape),
        (if neighbour shape i k = t then -2 * cfg.getD t 0 * cfg.getD i 0 else 0))
      = -2 * cfg.getD t 0 * cfg.getD (neighbour shape t (mate k)) 0 := by
    intro k hk
    have hk' : k < 2 * shape.length := Finset.mem_range.mp hk
    have hiff : ∀ i, i < latticeSize shape →
        (neighbour shape i k = t ↔ i = neighbour shape t (mate k)) := by
      intro i hi
      constructor
      · intro hik
        have := neighbour_mate hpos hi hk'
        rw [hik] at this
        exact this.symm
      · intro hi0
        have := neighbour_mate hpos ht (mate_lt hk')
        rw [mate_mate] at this
        rw [hi0]
        exact this
    have hmem : neighbour shape t (mate k) ∈ Finset.range (latticeSize shape) :=
      Finset.mem_range.mpr (neighbour_lt hpos ht (mate_lt hk'))
    calc (∑ i ∈ Finset.range (latticeSize shape),
          (if neighbour shape i k = t then -2 * cfg.getD t 0 * cfg.getD i 0 else 0))
        = ∑ i ∈ Finset.range (latticeSize shape),
          (if i = neighbour shape t (mate k) then -2 * cfg.getD t 0 * cfg.getD i 0 else 0) :=
          Finset.sum_congr rfl fun i hi => by
            rw [if_congr (hiff i (Finset.mem_range.mp hi)) rfl rfl]
      _ = -2 * cfg.getD t 0 * cfg.getD (neighbour shape t (mate k)) 0 := by
          rw [Finset.sum_ite_eq', if_pos hmem]
  have hreindex : (∑ k ∈ Finset.range (2 * shape.length),
      cfg.getD (neighbour shape t (mate k)) 0)
      = ∑ k ∈ Finset.range (2 * shape.length), cfg.getD (neighbour shape t k) 0 := by
    refine Finset.sum_nbij' mate mate ?_ ?_ ?_ ?_ ?_
    · intro k hk
      exact Finset.mem_range.mpr (mate_lt (Finset.mem_range.mp hk))
    · intro k hk
      exact Finset.mem_range.mpr (mate_lt (Finset.mem_range.mp hk))
    · intro k hk
      exact mate_mate
    · intro k hk
      exact mate_mate
    · intro k hk
      rfl
  rw [couplingSum_eq_finset, couplingSum_eq_finset, Finset.sum_congr rfl hpointwise,
    Finset.sum_add_distrib, Finset.sum_add_distrib, Finset.sum_ite_eq',
    if_pos (Finset.mem_range.mpr ht), Finset.sum_comm, Finset.sum_congr rfl hinner,
    ← Finset.mul_sum,
    hreindex, ← sumOfNeighbours_eq_finset]
  ring

theorem deltaE_eq_diff {shape : List ℕ} (h2 : ∀ s ∈ shape, 2 ≤ s) {cfg : Configuration}
    {t : ℕ} (hlen : cfg.length = latticeSize shape) (ht : t < latticeSize shape)
    (p : Parameters) :
    deltaE cfg t p shape
      = hamiltonian (Configuration.flip cfg t) p shape - hamiltonian cfg p shape := by
  rw [hamiltonian, hamiltonian, deltaE, couplingSum_flip h2 hlen ht, magnSum_flip hlen ht]
  push_cast
  ring

/-! ## Lemmas: Monte-Carlo engine -/

theorem mcStep_invariant {σ : Type} {p : Parameters} {shape : List ℕ}
    {genIdx : σ → ℕ × σ} {genReal : σ → ℝ × σ} (h2 : ∀ s ∈ shape, 2 ≤ s)
    (hidx : ∀ r : σ, (genIdx r).1 < latticeSize shape) (st : McState σ)
    (hlen : st.cfg.length = latticeSize shape)
    (he : st.energy = hamiltonian st.cfg p shape) :
    (mcStep p shape genIdx genReal st).cfg.length = latticeSize shape ∧
      (mcStep p shape genIdx genReal st).energy
        = hamiltonian (mcStep p shape genIdx genReal st).cfg p shape := by
  have hsite : (genIdx st.rng).1 < latticeSize shape := hidx st.rng
  simp only [mcStep]
  split_ifs with hd hexp
  · refine ⟨by rw [flip_length]; exact hlen, ?_⟩
    show st.energy + deltaE st.cfg (genIdx st.rng).1 p shape = _
    rw [he, deltaE_eq_diff h2 hlen hsite p]
    ring
  · refine ⟨by rw [flip_length]; exact hlen, ?_⟩
    show st.energy + deltaE st.cfg (genIdx st.rng).1 p shape = _
    rw [he, deltaE_eq_diff h2 hlen hsite p]
    ring
  · exact ⟨hlen, he⟩

theorem iterate_mcStep_invariant {σ : Type} {p : Parameters} {shape : List ℕ}
    {genIdx : σ → ℕ × σ} {genReal : σ → ℝ × σ} (h2 : ∀ s ∈ shape, 2 ≤ s)
    (hidx : ∀ r : σ, (genIdx r).1 < latticeSize shape) (n : ℕ) (st : McState σ)
    (hlen : st.cfg.length = latticeSize shape)
    (he : st.energy = hamiltonian st.cfg p shape) :
    ((mcStep p shape genIdx genReal)^[n] st).cfg.length = latticeSize shape ∧
      ((mcStep p shape genIdx genReal)^[n] st).energy
        = hamiltonian ((mcStep p shape genIdx genReal)^[n] st).cfg p shape := by
  induction n with
  | zero => exact ⟨hlen, he⟩
  | succ n ih =>
    rw [Function.iterate_succ_apply']
    exact mcStep_invariant h2 hidx _ ih.1 ih.2

theorem evolveState_invariant {σ : Type} {p : Parameters} {shape : List ℕ}
    {genIdx : σ → ℕ × σ} {genReal : σ → ℝ × σ} (h2 : ∀ s ∈ shape, 2 ≤ s)
    (hidx : ∀ r : σ, (genIdx r).1 < latticeSize shape) (nsweep : ℕ) (st : McState σ)
    (hlen : st.cfg.length = latticeSize shape)
    (he : st.energy = hamiltonian st.cfg p shape) :
    (evolveState p shape genIdx genReal nsweep st).cfg.length = latticeSize shape ∧
      (evolveState p shape genIdx genReal nsweep st).energy
        = hamiltonian (evolveState p shape genIdx genReal nsweep st).cfg p shape := by
  rw [evolveState]
  induction nsweep with
  | zero => exact ⟨hlen, he⟩
  | succ n ih =>
    rw [Function.iterate_succ_apply']
    rw [mcSweep]
    exact iterate_mcStep_invariant h2 hidx _ _ ih.1 ih.2

theorem mcStep_naccept_le {σ : Type} (p : Parameters) (shape : List ℕ)
    (genIdx : σ → ℕ × σ) (genReal : σ → ℝ × σ) (st : McState σ) :
    (mcStep p shape genIdx genReal st).naccept ≤ st.naccept + 1 := by
  simp only [mcStep]
  split_ifs <;> simp

theorem iterate_mcStep_naccept_le {σ : Type} (p : Parameters) (shape : List ℕ)
    (genIdx : σ → ℕ × σ) (genReal : σ → ℝ × σ) (n : ℕ) (st : McState σ) :
    ((mcStep p shape genIdx genReal)^[n] st).naccept ≤ st.naccept + n := by
  induction n with
  | zero => simp
  | succ n ih =>
    rw [Function.iterate_succ_apply']
    calc (mcStep p shape genIdx genReal ((mcStep p shape genIdx genReal)^[n] st)).naccept
        ≤ ((mcStep p shape genIdx genReal)^[n] st).naccept + 1 := mcStep_naccept_le _ _ _ _ _
      _ ≤ st.naccept + n + 1 := by omega

theorem evolveState_naccept_le {σ : Type} (p : Parameters) (shape : List ℕ)
    (genIdx : σ → ℕ × σ) (genReal : σ → ℝ × σ) (nsweep : ℕ) (st : McState σ) :
    (evolveState p shape genIdx genReal nsweep st).naccept
      ≤ st.naccept + nsweep * latticeSize shape := by
  rw [evolveState]
  induction nsweep with
  | zero => simp
  | succ n ih =>
    rw [Function.iterate_succ_apply', mcSweep]
    calc ((mcStep p shape genIdx genReal)^[latticeSize shape]
            ((mcSweep p shape genIdx genReal)^[n] st)).naccept
        ≤ ((mcSweep p shape genIdx genReal)^[n] st).naccept + latticeSize shape :=
          iterate_mcStep_naccept_le _ _ _ _ _ _
      _ ≤ st.naccept + n * latticeSize shape + latticeSize shape := by omega
      _ = st.naccept + (n + 1) * latticeSize shape := by ring

/-! ## Lemmas: distance map -/

theorem belowMax_iff_sqrt_lt (d : ℕ) (m : ℚ) :
    belowMax d m = true ↔ Real.sqrt d < (m : ℝ) := by
  have hden : (0:ℝ) < (m.den : ℝ) := by exact_mod_cast m.den_pos
  have hcast : (m:ℝ) = (m.num : ℝ) / (m.den : ℝ) := by
    rw [Rat.cast_def]
  have hsq : ((d:ℤ) * m.den * m.den < m.num * m.num) ↔ ((d:ℝ) < (m:ℝ) * (m:ℝ)) := by
    rw [hcast, div_mul_div_comm, lt_div_iff₀ (by positivity), ← mul_assoc]
    constructor <;> intro h <;> exact_mod_cast h
  constructor
  · intro hb
    rw [belowMax, Bool.and_eq_true, decide_eq_true_iff, decide_eq_true_iff] at hb
    obtain ⟨hnum, hlt⟩ := hb
    have hmpos : (0:ℝ) < (m:ℝ) := by exact_mod_cast Rat.num_pos.mp hnum
    refine (Real.sqrt_lt' hmpos).mpr ?_
    rw [sq]
    exact hsq.mp hlt
  · intro hs
    have hmpos : (0:ℝ) < (m:ℝ) := lt_of_le_of_lt (Real.sqrt_nonneg _) hs
    have hnum : 0 < m.num := Rat.num_pos.mpr (by exact_mod_cast hmpos)
    rw [belowMax, Bool.and_eq_true, decide_eq_true_iff, decide_eq_true_iff]
    refine ⟨hnum, hsq.mpr ?_⟩
    rw [← sq]
    exact (Real.sqrt_lt' hmpos).mp hs

theorem mindist1d_self (x nx : ℕ) : mindist1d x x nx = 0 := by
  rw [mindist1d]
  have h : nx + x - x = nx := by omega
  rw [h, Nat.mod_self]
  simp

theorem sqMindist_self (m shape : List ℕ) (distfn : DistanceFn) :
    sqMindist m m shape distfn = 0 := by
  have h : (List.range shape.length).map (fun dim =>
      mindist1d (m.getD dim 0) (m.getD dim 0) (shape.getD dim 1))
      = List.replicate shape.length 0 := by
    rw [List.eq_replicate_iff]
    refine ⟨by simp, fun b hb => ?_⟩
    simp only [List.mem_map] at hb
    obtain ⟨dim, _, hd⟩ := hb
    rw [← hd, mindist1d_self]
  cases distfn
  · simp only [sqMindist]
    rw [h, sqEuclidean, List.map_replicate]
    simp
  · simp only [sqMindist]
    rw [h, sqManhattan]
    simp

theorem distLoopJ_mem {shape : List ℕ} (hpos : ∀ s ∈ shape, 1 ≤ s) (distfn : DistanceFn)
    (mx : ℚ) (site0 : List ℕ) (i : ℕ) :
    ∀ (fuel j : ℕ) (e : ℕ × ℕ × ℕ),
      e ∈ distLoopJ shape distfn (some mx) site0 i fuel j (fromFlat j shape) ↔
      ∃ t, t < fuel ∧
        e = (sqMindist site0 (fromFlat (j + t) shape) shape distfn, i, j + t) ∧
        belowMax (sqMindist site0 (fromFlat (j + t) shape) shape distfn) mx = true := by
  intro fuel
  induction fuel with
  | zero =>
    intro j e
    simp [distLoopJ]
  | succ fuel ih =>
    intro j e
    rw [distLoopJ]
    rw [increment_fromFlat hpos]
    rw [List.mem_append, ih (j + 1) e]
    constructor
    · rintro (hhead | ⟨t, ht, he, hb⟩)
      · by_cases hbm : belowMax (sqMindist site0 (fromFlat j shape) shape distfn) mx = true
        · rw [if_pos hbm] at hhead
          simp only [List.mem_singleton] at hhead
          exact ⟨0, by omega, by simpa using hhead, by simpa using hbm⟩
        · rw [if_neg hbm] at hhead
          simp at hhead
      · exact ⟨t + 1, by omega, by rw [he]; ring_nf, by
          have : j + 1 + t = j + (t + 1) := by omega
          rw [← this]; exact hb⟩
    · rintro ⟨t, ht, he, hb⟩
      cases t with
      | zero =>
        left
        rw [Nat.add_zero] at he hb
        rw [if_pos hb, he]
        simp
      | succ t =>
        right
        refine ⟨t, by omega, ?_, ?_⟩
        · rw [he]; ring_nf
        · have : j + 1 + t = j + (t + 1) := by omega
          rw [this]; exact hb

theorem distLoopI_mem {shape : List ℕ} (hpos : ∀ s ∈ shape, 1 ≤ s) (distfn : DistanceFn)
    (mx : ℚ) :
    ∀ (fuel i : ℕ) (e : ℕ × ℕ × ℕ),
      e ∈ distLoopI shape distfn (some mx) fuel i (fromFlat i shape) ↔
      ∃ a b, i ≤ a ∧ a < i + fuel ∧ a ≤ b ∧ b < latticeSize shape ∧
        e = (sqMindistFlat shape distfn a b, a, b) ∧
        belowMax (sqMindistFlat shape distfn a b) mx = true := by
  intro fuel
  induction fuel with
  | zero =>
    intro i e
    simp [distLoopI]
    omega
  | succ fuel ih =>
    intro i e
    rw [distLoopI, increment_fromFlat hpos, List.mem_append, ih (i + 1) e]
    have hinner := distLoopJ_mem hpos distfn mx (fromFlat i shape) i
      (latticeSize shape - i) i e
    rw [hinner]
    constructor
    · rintro (⟨t, ht, he, hb⟩ | ⟨a, b, ha1, ha2, hab, hb2, he, hbm⟩)
      · exact ⟨i, i + t, le_refl _, by omega, by omega, by omega,
          by rw [he]; rfl, by exact hb⟩
      · exact ⟨a, b, by omega, by omega, hab, hb2, he, hbm⟩
    · rintro ⟨a, b, ha1, ha2, hab, hb2, he, hbm⟩
      by_cases hai : a = i
      · subst hai
        left
        refine ⟨b - a, by omega, ?_, ?_⟩
        · rw [he]
          have : a + (b - a) = b := by omega
          rw [this]
          rfl
        · have : a + (b - a) = b := by omega
          rw [this]
          exact hbm
      · right
        exact ⟨a, b, by omega, by omega, hab, hb2, he, hbm⟩

theorem distMapEntries_mem {shape : List ℕ} (hpos : ∀ s ∈ shape, 1 ≤ s)
    (distfn : DistanceFn) (mx : ℚ) (e : ℕ × ℕ × ℕ) :
    e ∈ distMapEntries shape (some mx) distfn ↔
      ∃ a b, a + 1 < latticeSize shape ∧ a ≤ b ∧ b < latticeSize shape ∧
        e = (sqMindistFlat shape distfn a b, a, b) ∧
        belowMax (sqMindistFlat shape distfn a b) mx = true := by
  have h0 : List.replicate shape.length 0 = fromFlat 0 shape := (fromFlat_zero shape).symm
  rw [distMapEntries, h0, distLoopI_mem hpos distfn mx (latticeSize shape - 1) 0 e]
  have hL : 0 < latticeSize shape := latticeSize_pos hpos
  constructor
  · rintro ⟨a, b, _, ha2, hab, hb2, he, hbm⟩
    exact ⟨a, b, by omega, hab, hb2, he, hbm⟩
  · rintro ⟨a, b, ha2, hab, hb2, he, hbm⟩
    exact ⟨a, b, by omega, by omega, hab, hb2, he, hbm⟩

theorem pairsWithSqDistance_mem (shape : List ℕ) (maxDist : Option ℚ)
    (distfn : DistanceFn) (k : ℕ) (pr : ℕ × ℕ) :
    pr ∈ pairsWithSqDistance shape maxDist distfn k ↔
      (k, pr) ∈ distMapEntries shape maxDist distfn := by
  rw [pairsWithSqDistance, List.mem_filterMap]
  constructor
  · rintro ⟨e, he, hf⟩
    by_cases hk : e.1 = k
    · rw [if_pos hk] at hf
      obtain ⟨e1, e2⟩ := e
      simp only [Option.some.injEq] at hf
      simp only at hk
      rw [hk, hf] at he
      exact he
    · rw [if_neg hk] at hf
      simp at hf
  · intro he
    exact ⟨(k, pr), he, by rw [if_pos rfl]⟩

theorem sqDistances_mem (shape : List ℕ) (maxDist : Option ℚ) (distfn : DistanceFn)
    (k : ℕ) :
    k ∈ sqDistances shape maxDist distfn ↔
      ∃ pr, (k, pr) ∈ distMapEntries shape maxDist distfn := by
  rw [sqDistances, List.mem_mergeSort, List.mem_dedup, List.mem_map]
  constructor
  · rintro ⟨e, he, hk⟩
    exact ⟨e.2, by rw [← hk]; exact he⟩
  · rintro ⟨pr, hpr⟩
    exact ⟨(k, pr), hpr, rfl⟩

theorem mcStep_accept_eq_full {σ : Type} (p : Parameters) (shape : List ℕ)
    (genIdx : σ → ℕ × σ) (genReal : σ → ℝ × σ) (st : McState σ)
    (hu0 : 0 ≤ (genReal (genIdx st.rng).2).1)
    (hu1 : (genReal (genIdx st.rng).2).1 < 1) :
    (mcStep p shape genIdx genReal st).naccept
      = st.naccept + (if Real.exp (-deltaE st.cfg (genIdx st.rng).1 p shape)
          > (genReal (genIdx st.rng).2).1 then 1 else 0)
    ∧ (deltaE st.cfg (genIdx st.rng).1 p shape ≤ 0 →
        (mcStep p shape genIdx genReal st).rng = (genIdx st.rng).2) := by
  by_cases hd : deltaE st.cfg (genIdx st.rng).1 p shape ≤ 0
  · have hfull : Real.exp (-deltaE st.cfg (genIdx st.rng).1 p shape)
        > (genReal (genIdx st.rng).2).1 :=
      lt_of_lt_of_le hu1 (Real.one_le_exp (by linarith))
    constructor
    · simp only [mcStep]
      rw [if_pos hd, if_pos hfull]
    · intro _
      simp only [mcStep]
      rw [if_pos hd]
  · constructor
    · simp only [mcStep]
      rw [if_neg hd]
      by_cases hfull : Real.exp (-deltaE st.cfg (genIdx st.rng).1 p shape)
          > (genReal (genIdx st.rng).2).1
      · rw [if_pos hfull, if_pos hfull]
      · rw [if_neg hfull, if_neg hfull]
        simp
    · intro hcontra
      exact absurd hcontra hd


/-! ## Claim theorems -/

/-- C1 (amended): for every lattice whose extents are all ≥ 2, every
configuration of matching size, every in-range site and all parameters,
`deltaE` equals the hamiltonian difference caused by flipping that site,
exactly over the reals.  (As stated over all lattices the claim fails: on a
lattice with an extent-1 dimension a site is its own neighbour, see
`C1_counterexample`.) -/
theorem C1_deltaE_eq_hamiltonian_diff {shape : List ℕ} (h2 : ∀ s ∈ shape, 2 ≤ s)
    {cfg : Configuration} {site : ℕ} (hlen : cfg.length = latticeSize shape)
    (hsite : site < latticeSize shape) (p : Parameters) :
    deltaE cfg site p shape
      = hamiltonian (Configuration.flip cfg site) p shape - hamiltonian cfg p shape :=
  deltaE_eq_diff h2 hlen hsite p

/-- C1 witness: the amended identity evaluated on the 1-dimensional lattice of
two sites. -/
theorem C1_witness :
    (∀ s ∈ [2], 2 ≤ s) ∧ ([1, 1] : Configuration).length = latticeSize [2]
    ∧ 0 < latticeSize [2]
    ∧ deltaE [1, 1] 0 ⟨1, 1⟩ [2]
        = hamiltonian (Configuration.flip [1, 1] 0) ⟨1, 1⟩ [2]
          - hamiltonian [1, 1] ⟨1, 1⟩ [2] :=
  ⟨by decide, by decide, by decide,
    C1_deltaE_eq_hamiltonian_diff (by decide) (by decide) (by decide) ⟨1, 1⟩⟩

/-- C1 counterexample: on the one-site lattice `[1]` (an extent-1 dimension,
allowed by the spec's "each ≥ 1"), the site is its own neighbour twice, and
`deltaE = 4·J/kT` while flipping changes the hamiltonian by `0`. -/
theorem C1_counterexample :
    deltaE [1] 0 ⟨1, 0⟩ [1]
      ≠ hamiltonian (Configuration.flip [1] 0) ⟨1, 0⟩ [1] - hamiltonian [1] ⟨1, 0⟩ [1] := by
  have hs : sumOfNeighbours [1] 0 [1] = 2 := by decide
  have hf : Configuration.flip [1] 0 = [-1] := by decide
  have hc1 : couplingSum [-1] [1] = 2 := by decide
  have hm1 : magnSum [-1] [1] = -1 := by decide
  have hc0 : couplingSum [1] [1] = 2 := by decide
  have hm0 : magnSum [1] [1] = 1 := by decide
  rw [deltaE, hamiltonian, hamiltonian, hf, hs, hc1, hm1, hc0, hm0]
  norm_num

/-- C3: the short-circuited Metropolis accept test of `evolve` (accept
unconditionally when `delta ≤ 0`, only otherwise drawing `genReal`) reaches
exactly the same accept decision as always evaluating
`exp(-delta) > genReal()`, because `exp(-delta) ≥ 1 > u` for every draw
`u ∈ [0,1)` when `delta ≤ 0`; and in that case the generator state is not
advanced past the site draw. -/
theorem C3_short_circuit_equiv {σ : Type} (p : Parameters) (shape : List ℕ)
    (genIdx : σ → ℕ × σ) (genReal : σ → ℝ × σ) (st : McState σ)
    (hu0 : 0 ≤ (genReal (genIdx st.rng).2).1)
    (hu1 : (genReal (genIdx st.rng).2).1 < 1) :
    (mcStep p shape genIdx genReal st).naccept
      = st.naccept + (if Real.exp (-deltaE st.cfg (genIdx st.rng).1 p shape)
          > (genReal (genIdx st.rng).2).1 then 1 else 0)
    ∧ (deltaE st.cfg (genIdx st.rng).1 p shape ≤ 0 →
        (mcStep p shape genIdx genReal st).rng = (genIdx st.rng).2) :=
  mcStep_accept_eq_full p shape genIdx genReal st hu0 hu1

/-- C3 witness: a concrete step on the one-site lattice with the constant
zero draw. -/
theorem C3_witness :
    (0:ℝ) ≤ (((fun _ => ((0:ℝ), ())) (((fun _ => (0, ())) ()).2)).1)
    ∧ (((fun _ => ((0:ℝ), ())) (((fun _ => (0, ())) ()).2)).1) < 1
    ∧ ((mcStep ⟨1, 0⟩ [1] (fun _ => (0, ())) (fun _ => ((0:ℝ), ()))
          ⟨[1], 0, 0, ()⟩).naccept
        = (0:ℕ) + (if Real.exp (-deltaE [1] 0 ⟨1, 0⟩ [1])
            > ((0:ℝ)) then 1 else 0)
      ∧ (deltaE [1] 0 ⟨1, 0⟩ [1] ≤ 0 →
          (mcStep ⟨1, 0⟩ [1] (fun _ => (0, ())) (fun _ => ((0:ℝ), ()))
            ⟨[1], 0, 0, ()⟩).rng = ())) :=
  ⟨le_refl 0, zero_lt_one,
    C3_short_circuit_equiv ⟨1, 0⟩ [1] (fun _ => (0, ())) (fun _ => ((0:ℝ), ()))
      ⟨[1], 0, 0, ()⟩ (le_refl 0) zero_lt_one⟩

/-- C5: on every lattice (all extents ≥ 1), for every site `i` and neighbour
slot `k < 2·ndim`, the site `i` appears among the `2·ndim` neighbours of
`neighbour(i,k)` — the neighbour list is symmetric (the witnessing slot is
the partner slot of `k` in the same dimension). -/
theorem C5_neighbour_symmetric {shape : List ℕ} (hpos : ∀ s ∈ shape, 1 ≤ s)
    {i k : ℕ} (hi : i < latticeSize shape) (hk : k < 2 * shape.length) :
    ∃ k', k' < 2 * shape.length ∧ neighbour shape (neighbour shape i k) k' = i :=
  ⟨mate k, mate_lt hk, neighbour_mate hpos hi hk⟩

/-- C5 witness: the symmetry evaluated on the 2×3 lattice at site 4, slot 1. -/
theorem C5_witness :
    (∀ s ∈ [2, 3], 1 ≤ s) ∧ 4 < latticeSize [2, 3] ∧ 1 < 2 * ([2, 3] : List ℕ).length
    ∧ ∃ k', k' < 2 * ([2, 3] : List ℕ).length
        ∧ neighbour [2, 3] (neighbour [2, 3] 4 1) k' = 4 :=
  ⟨by decide, by decide, by decide,
    C5_neighbour_symmetric (by decide) (by decide) (by decide)⟩

/-- C7 (amended): on the 3×3 lattice, the checkerboard configuration
`+,-,+,-,+,-,+,-,+` (row-major) has `hamiltonian = J/kT·6 − h/kT` for all
parameters — in particular `6.0` at `J/kT = 1, h/kT = 0`.  The claim's value
`J·6 + h` belongs to the negated pattern `-,+,-,...` that the test actually
builds (its magnetisation is `-1`, while the stated pattern has `+1`); see
`C7_counterexample`. -/
theorem C7_checkerboard_hamiltonian (p : Parameters) :
    hamiltonian chk33 p [3, 3] = p.JT * 6 - p.hT := by
  have hc : couplingSum chk33 [3, 3] = -12 := by decide
  have hm : magnSum chk33 [3, 3] = 1 := by decide
  rw [hamiltonian, hc, hm]
  push_cast
  ring

/-- C7 counterexample: at `J/kT = 0, h/kT = 1` the stated configuration gives
`hamiltonian = -1`, not the claimed `J·6 + h = 1`. -/
theorem C7_counterexample :
    hamiltonian chk33 ⟨0, 1⟩ [3, 3] ≠ (0:ℝ) * 6 + 1 := by
  have hc : couplingSum chk33 [3, 3] = -12 := by decide
  have hm : magnSum chk33 [3, 3] = 1 := by decide
  rw [hamiltonian, hc, hm]
  norm_num

/-- C8: configurations hold only spins ±1: construction with any other
initial spin throws; construction with ±1 fills every site with that spin;
`flip` negates exactly the addressed site and leaves the rest (and the
length) unchanged; hence flipping preserves the all-±1 invariant. -/
theorem C8_configuration_invariant :
    (∀ (n : ℕ) (s : ℤ), (mkConfiguration n s).isSome ↔ (s = 1 ∨ s = -1))
    ∧ (∀ (n : ℕ) (s : ℤ) (cfg : Configuration), mkConfiguration n s = some cfg →
        cfg.length = n ∧ ∀ i < n, cfg.getD i 0 = s)
    ∧ (∀ (cfg : Configuration) (t : ℕ), t < cfg.length →
        (Configuration.flip cfg t).getD t 0 = -(cfg.getD t 0)
        ∧ (∀ j, j ≠ t → (Configuration.flip cfg t).getD j 0 = cfg.getD j 0)
        ∧ (Configuration.flip cfg t).length = cfg.length)
    ∧ (∀ (cfg : Configuration) (t : ℕ), (∀ x ∈ cfg, x = 1 ∨ x = -1) →
        ∀ x ∈ Configuration.flip cfg t, x = 1 ∨ x = -1) := by
  refine ⟨?_, ?_, ?_, ?_⟩
  · intro n s
    rw [mkConfiguration]
    split
    · next hs => simpa using hs
    · next hs => simpa using hs
  · intro n s cfg hmk
    rw [mkConfiguration] at hmk
    split at hmk
    · simp only [Option.some.injEq] at hmk
      subst hmk
      refine ⟨List.length_replicate _ _, fun i hi => ?_⟩
      rw [List.getD_eq_getElem _ _ (by simpa using hi), List.getElem_replicate]
    · simp at hmk
  · intro cfg t ht
    refine ⟨?_, fun j hj => ?_, flip_length cfg t⟩
    · rw [flip_getD ht, if_pos rfl]
    · rw [flip_getD ht, if_neg hj]
  · intro cfg t hinv x hx
    rw [Configuration.flip] at hx
    rcases List.mem_or_eq_of_mem_set hx with hmem | hval
    · exact hinv x hmem
    · by_cases ht : t < cfg.length
      · have hm : cfg.getD t 0 ∈ cfg := by
          rw [List.getD_eq_getElem _ _ ht]
          exact List.getElem_mem ht
        rcases hinv _ hm with h1 | h1 <;> rw [hval, h1] <;> norm_num
      · rw [List.set_eq_of_length_le (by omega)] at hx
        exact hinv x hx

/-- C8 witness: flipping site 0 of `[1, -1]` negates exactly that site. -/
theorem C8_witness :
    0 < ([1, -1] : Configuration).length
    ∧ (Configuration.flip [1, -1] 0).getD 0 0 = -(([1, -1] : Configuration).getD 0 0) :=
  ⟨by decide, (C8_configuration_invariant.2.2.1 [1, -1] 0 (by decide)).1⟩

/-- C9 (spec-modelled): `setLatsize` changes only the `genIndex` bound; the
generator component is untouched, every subsequent draw sequence coincides
with that of an Rng whose bound had been the new value all along, and each
draw advances the generator by exactly one engine step regardless of the
bound. -/
theorem C9_setLatsize_frame (engine : ℕ → ℕ × ℕ) (r : RngState) (n : ℕ)
    (ops : List RngOp) :
    (setLatsize r n).gen = r.gen
    ∧ runOps engine ops (setLatsize r n) = runOps engine ops ⟨r.gen, n⟩
    ∧ ∀ op, (runOp engine op (setLatsize r n)).2.gen = (engine r.gen).2 := by
  refine ⟨rfl, rfl, fun op => ?_⟩
  cases op <;> rfl

/-- C10: every key present in the distance map has a nonempty bucket — the
pair count `n` that `measureCorrelator` divides by is ≥ 1 for every key
reported by `sqDistances()`. -/
theorem C10_correlator_pair_count_pos {shape : List ℕ} {maxDist : Option ℚ}
    {distfn : DistanceFn} {k : ℕ} (hk : k ∈ sqDistances shape maxDist distfn) :
    0 < correlatorPairCount shape maxDist distfn k := by
  obtain ⟨pr, hpr⟩ := (sqDistances_mem shape maxDist distfn k).mp hk
  have hmem : pr ∈ pairsWithSqDistance shape maxDist distfn k :=
    (pairsWithSqDistance_mem shape maxDist distfn k pr).mpr hpr
  rw [correlatorPairCount]
  exact List.length_pos.mpr (List.ne_nil_of_mem hmem)

/-- C10 witness: the key-0 bucket of the two-site lattice with cutoff 1. -/
theorem C10_witness :
    0 ∈ sqDistances [2] (some 1) DistanceFn.euclidean
    ∧ 0 < correlatorPairCount [2] (some 1) DistanceFn.euclidean 0 :=
  ⟨List.mem_mergeSort.mpr (by decide),
    C10_correlator_pair_count_pos (List.mem_mergeSort.mpr (by decide))⟩

/-- C4 (amended): for a lattice with a cutoff `maxDist`, the distance map
contains the pair `(i,j)`, `i ≤ j`, filed under its squared minimum-image
distance, exactly when `sqrt(d) < maxDist` **and** `i` is not the last site:
the outer loop of `buildDistMap` runs `i` over `[0, size-1)`, so the self-pair
of the last site is never inserted (see `C4_counterexample`); every other
self-pair `(i,i)` is in the key-0 bucket whenever `maxDist > 0`, and no pair
with `sqrt(d) ≥ maxDist` is present. -/
theorem C4_distMap_characterization {shape : List ℕ} (hpos : ∀ s ∈ shape, 1 ≤ s)
    (distfn : DistanceFn) (mx : ℚ) :
    (∀ d i j, (d, i, j) ∈ distMapEntries shape (some mx) distfn ↔
      (i + 1 < latticeSize shape ∧ i ≤ j ∧ j < latticeSize shape
        ∧ d = sqMindistFlat shape distfn i j
        ∧ Real.sqrt (sqMindistFlat shape distfn i j) < (mx : ℝ)))
    ∧ (∀ i, i + 1 < latticeSize shape → (0:ℚ) < mx →
        (0, i, i) ∈ distMapEntries shape (some mx) distfn) := by
  have hchar : ∀ d i j, (d, i, j) ∈ distMapEntries shape (some mx) distfn ↔
      (i + 1 < latticeSize shape ∧ i ≤ j ∧ j < latticeSize shape
        ∧ d = sqMindistFlat shape distfn i j
        ∧ Real.sqrt (sqMindistFlat shape distfn i j) < (mx : ℝ)) := by
    intro d i j
    rw [distMapEntries_mem hpos distfn mx]
    constructor
    · rintro ⟨a, b, ha, hab, hb, he, hbm⟩
      simp only [Prod.mk.injEq] at he
      obtain ⟨hd, hi, hj⟩ := he
      subst hi; subst hj
      exact ⟨ha, hab, hb, hd, (belowMax_iff_sqrt_lt _ _).mp hbm⟩
    · rintro ⟨hi1, hij, hj, hd, hsqrt⟩
      exact ⟨i, j, hi1, hij, hj, by rw [hd], (belowMax_iff_sqrt_lt _ _).mpr hsqrt⟩
  refine ⟨hchar, fun i hi1 hmx => ?_⟩
  have h0 : sqMindistFlat shape distfn i i = 0 := by
    rw [sqMindistFlat]; exact sqMindist_self _ _ _
  refine (hchar 0 i i).mpr ⟨hi1, le_refl i, by omega, h0.symm, ?_⟩
  rw [h0, Nat.cast_zero, Real.sqrt_zero]
  exact_mod_cast hmx

/-- C4 witness: the characterization evaluated on the two-site lattice with
cutoff 1. -/
theorem C4_witness :
    (∀ s ∈ [2], 1 ≤ s)
    ∧ ((∀ d i j, (d, i, j) ∈ distMapEntries [2] (some 1) DistanceFn.euclidean ↔
        (i + 1 < latticeSize [2] ∧ i ≤ j ∧ j < latticeSize [2]
          ∧ d = sqMindistFlat [2] DistanceFn.euclidean i j
          ∧ Real.sqrt (sqMindistFlat [2] DistanceFn.euclidean i j) < ((1:ℚ) : ℝ)))
      ∧ (∀ i, i + 1 < latticeSize [2] → (0:ℚ) < 1 →
          (0, i, i) ∈ distMapEntries [2] (some 1) DistanceFn.euclidean)) :=
  ⟨by decide, C4_distMap_characterization (by decide) DistanceFn.euclidean 1⟩

/-- C4 counterexample: on the two-site lattice `[2]` with cutoff 1, the
self-pair of the last site satisfies `sqrt(0) < 1` yet is absent from the
distance map (the spec requires every such pair, including `i = j`, to be
present). -/
theorem C4_counterexample :
    Real.sqrt (sqMindistFlat [2] DistanceFn.euclidean 1 1) < ((1:ℚ) : ℝ)
    ∧ (sqMindistFlat [2] DistanceFn.euclidean 1 1, 1, 1)
        ∉ distMapEntries [2] (some 1) DistanceFn.euclidean := by
  have h0 : sqMindistFlat [2] DistanceFn.euclidean 1 1 = 0 := by decide
  constructor
  · rw [h0, Nat.cast_zero, Real.sqrt_zero]
    norm_num
  · rw [h0]
    decide

/-- C6 (amended): for every call to `evolve` with `nSweeps ≥ 1` on a lattice
with all extents ≥ 1, the returned acceptance rate is the real number
`naccept / (nSweeps · size)` and lies in `[0,1]` — for every RNG stream.  (As
stated over every `nSweeps ≥ 0` the claim fails: at `nSweeps = 0` the source
computes the double division `0.0/0.0 = NaN`, which is not a number in
`[0,1]`; see `C6_counterexample`.) -/
theorem C6_acceptance_rate {σ : Type} (cfg : Configuration) (energy : ℝ)
    (p : Parameters) {shape : List ℕ} (genIdx : σ → ℕ × σ) (genReal : σ → ℝ × σ)
    (rng0 : σ) {nsweep : ℕ} (hns : 1 ≤ nsweep) (hpos : ∀ s ∈ shape, 1 ≤ s) :
    (evolve cfg energy p shape genIdx genReal rng0 nsweep).2.2
      = some (((evolveState p shape genIdx genReal nsweep ⟨cfg, energy, 0, rng0⟩).naccept : ℝ)
          / ((nsweep * latticeSize shape : ℕ) : ℝ))
    ∧ 0 ≤ ((evolveState p shape genIdx genReal nsweep ⟨cfg, energy, 0, rng0⟩).naccept : ℝ)
          / ((nsweep * latticeSize shape : ℕ) : ℝ)
    ∧ ((evolveState p shape genIdx genReal nsweep ⟨cfg, energy, 0, rng0⟩).naccept : ℝ)
          / ((nsweep * latticeSize shape : ℕ) : ℝ) ≤ 1 := by
  have hS : 0 < latticeSize shape := latticeSize_pos hpos
  have hnsR : ((nsweep : ℕ) : ℝ) ≠ 0 := Nat.cast_ne_zero.mpr (by omega)
  have hSR : ((latticeSize shape : ℕ) : ℝ) ≠ 0 := Nat.cast_ne_zero.mpr (by omega)
  have hb : (evolveState p shape genIdx genReal nsweep ⟨cfg, energy, 0, rng0⟩).naccept
      ≤ nsweep * latticeSize shape := by
    have := evolveState_naccept_le p shape genIdx genReal nsweep ⟨cfg, energy, 0, rng0⟩
    simpa using this
  refine ⟨?_, by positivity, ?_⟩
  · have hrate : (evolve cfg energy p shape genIdx genReal rng0 nsweep).2.2
        = (divFin
            ((evolveState p shape genIdx genReal nsweep ⟨cfg, energy, 0, rng0⟩).naccept : ℝ)
            (nsweep : ℝ)).bind (fun t => divFin t (latticeSize shape : ℝ)) := rfl
    rw [hrate, divFin, if_neg hnsR, Option.some_bind, divFin, if_neg hSR, div_div,
      Nat.cast_mul]
  · rw [Nat.cast_mul]
    refine (div_le_one (by positivity)).mpr ?_
    rw [← Nat.cast_mul]
    exact_mod_cast hb

/-- C6 witness: one sweep on the two-site lattice with the constant-zero
stream. -/
theorem C6_witness :
    (1:ℕ) ≤ 1 ∧ (∀ s ∈ [2], 1 ≤ s)
    ∧ ((evolve [1, 1] 0 ⟨1, 0⟩ [2] (fun _ => (0, ())) (fun _ => ((0:ℝ), ())) () 1).2.2
        = some (((evolveState ⟨1, 0⟩ [2] (fun _ => (0, ())) (fun _ => ((0:ℝ), ())) 1
              ⟨[1, 1], 0, 0, ()⟩).naccept : ℝ) / ((1 * latticeSize [2] : ℕ) : ℝ))
      ∧ 0 ≤ ((evolveState ⟨1, 0⟩ [2] (fun _ => (0, ())) (fun _ => ((0:ℝ), ())) 1
              ⟨[1, 1], 0, 0, ()⟩).naccept : ℝ) / ((1 * latticeSize [2] : ℕ) : ℝ)
      ∧ ((evolveState ⟨1, 0⟩ [2] (fun _ => (0, ())) (fun _ => ((0:ℝ), ())) 1
              ⟨[1, 1], 0, 0, ()⟩).naccept : ℝ) / ((1 * latticeSize [2] : ℕ) : ℝ) ≤ 1) :=
  ⟨le_refl 1, by decide,
    C6_acceptance_rate [1, 1] 0 ⟨1, 0⟩ (fun _ => (0, ())) (fun _ => ((0:ℝ), ()))
      () (le_refl 1) (by decide)⟩

/-- C6 counterexample: at `nSweeps = 0` the acceptance-rate computation is the
double division `0.0/0.0` — NaN, modelled `none` — so the returned rate is
not a real number in `[0,1]`. -/
theorem C6_counterexample :
    (evolve [1, 1] 0 ⟨1, 0⟩ [2] (fun _ => (0, ())) (fun _ => ((0:ℝ), ())) () 0).2.2
      = none := by
  have hrate : (evolve [1, 1] 0 ⟨1, 0⟩ [2] (fun _ => (0, ())) (fun _ => ((0:ℝ), ())) () 0).2.2
      = (divFin ((0:ℕ) : ℝ) ((0:ℕ) : ℝ)).bind
          (fun t => divFin t (latticeSize [2] : ℝ)) := rfl
  rw [hrate, divFin, if_pos (by norm_num)]
  rfl

/-- C2 (amended): for every lattice whose extents are all ≥ 2, if the energy
passed to `evolve` equals `hamiltonian(cfg)`, the returned energy equals
`hamiltonian` of the returned configuration, exactly over the reals, for
every sweep count and every RNG stream (site draws in range, as the Rng
guarantees).  (As stated over all lattices the claim fails on an extent-1
dimension, where `deltaE` is not the true energy difference; see
`C2_counterexample`.) -/
theorem C2_energy_matches_hamiltonian {σ : Type} {p : Parameters} {shape : List ℕ}
    {genIdx : σ → ℕ × σ} {genReal : σ → ℝ × σ} (h2 : ∀ s ∈ shape, 2 ≤ s)
    (hidx : ∀ r : σ, (genIdx r).1 < latticeSize shape)
    {cfg : Configuration} {energy : ℝ} (rng0 : σ) (nsweep : ℕ)
    (hlen : cfg.length = latticeSize shape)
    (he : energy = hamiltonian cfg p shape) :
    (evolve cfg energy p shape genIdx genReal rng0 nsweep).2.1
      = hamiltonian (evolve cfg energy p shape genIdx genReal rng0 nsweep).1 p shape :=
  (evolveState_invariant h2 hidx nsweep ⟨cfg, energy, 0, rng0⟩ hlen he).2

/-- C2 witness: two sweeps on the two-site lattice with the constant-zero
stream, starting from the true energy. -/
theorem C2_witness :
    (∀ s ∈ [2], 2 ≤ s)
    ∧ (∀ r : Unit, ((fun _ => (0, ())) r : ℕ × Unit).1 < latticeSize [2])
    ∧ ([1, 1] : Configuration).length = latticeSize [2]
    ∧ (evolve [1, 1] (hamiltonian [1, 1] ⟨1, 0⟩ [2]) ⟨1, 0⟩ [2]
          (fun _ => (0, ())) (fun _ => ((0:ℝ), ())) () 2).2.1
        = hamiltonian (evolve [1, 1] (hamiltonian [1, 1] ⟨1, 0⟩ [2]) ⟨1, 0⟩ [2]
            (fun _ => (0, ())) (fun _ => ((0:ℝ), ())) () 2).1 ⟨1, 0⟩ [2] :=
  ⟨by decide, fun r => by cases r; decide, by decide,
    C2_energy_matches_hamiltonian (by decide) (fun r => by cases r; decide) () 2
      (by decide) rfl⟩

/-- C2 counterexample: on the one-site lattice `[1]` with `J/kT = -1`,
`h/kT = 0`, the initial energy `1` equals the hamiltonian, the single step
accepts (`delta = -4 ≤ 0`), and the returned running energy is `-3` while the
hamiltonian of the returned configuration is `1`. -/
theorem C2_counterexample :
    (1:ℝ) = hamiltonian [1] ⟨-1, 0⟩ [1]
    ∧ (evolve [1] 1 ⟨-1, 0⟩ [1] (fun _ => (0, ())) (fun _ => ((0:ℝ), ())) () 1).2.1
        ≠ hamiltonian
            (evolve [1] 1 ⟨-1, 0⟩ [1] (fun _ => (0, ())) (fun _ => ((0:ℝ), ())) () 1).1
            ⟨-1, 0⟩ [1] := by
  have hc0 : couplingSum [1] [1] = 2 := by decide
  have hm0 : magnSum [1] [1] = 1 := by decide
  have hc1 : couplingSum [-1] [1] = 2 := by decide
  have hm1 : magnSum [-1] [1] = -1 := by decide
  have hH1 : hamiltonian [1] ⟨-1, 0⟩ [1] = 1 := by
    rw [hamiltonian, hc0, hm0]; norm_num
  have hHm1 : hamiltonian [-1] ⟨-1, 0⟩ [1] = 1 := by
    rw [hamiltonian, hc1, hm1]; norm_num
  have hdelta : deltaE [1] 0 ⟨-1, 0⟩ [1] = -4 := by
    rw [deltaE, show sumOfNeighbours [1] 0 [1] = 2 from by decide]; norm_num
  have hstep : mcStep ⟨-1, 0⟩ [1] (fun _ => (0, ())) (fun _ => ((0:ℝ), ()))
      (⟨[1], 1, 0, ()⟩ : McState Unit)
      = ⟨[-1], 1 + deltaE [1] 0 ⟨-1, 0⟩ [1], 1, ()⟩ := by
    simp only [mcStep]
    rw [if_pos (by rw [hdelta]; norm_num)]
    rw [show Configuration.flip [1] 0 = [-1] from by decide]
  have hsweep : evolveState ⟨-1, 0⟩ [1] (fun _ => (0, ())) (fun _ => ((0:ℝ), ())) 1
      (⟨[1], 1, 0, ()⟩ : McState Unit)
      = ⟨[-1], 1 + deltaE [1] 0 ⟨-1, 0⟩ [1], 1, ()⟩ := by
    rw [evolveState, Function.iterate_one, mcSweep,
      show latticeSize [1] = 1 from rfl, Function.iterate_one, hstep]
  have henergy : (evolve [1] 1 ⟨-1, 0⟩ [1] (fun _ => (0, ()))
      (fun _ => ((0:ℝ), ())) () 1).2.1
      = (evolveState ⟨-1, 0⟩ [1] (fun _ => (0, ())) (fun _ => ((0:ℝ), ())) 1
          (⟨[1], 1, 0, ()⟩ : McState Unit)).energy := rfl
  have hcfg : (evolve [1] 1 ⟨-1, 0⟩ [1] (fun _ => (0, ()))
      (fun _ => ((0:ℝ), ())) () 1).1
      = (evolveState ⟨-1, 0⟩ [1] (fun _ => (0, ())) (fun _ => ((0:ℝ), ())) 1
          (⟨[1], 1, 0, ()⟩ : McState Unit)).cfg := rfl
  refine ⟨hH1.symm, ?_⟩
  rw [henergy, hcfg, hsweep, hdelta]
  rw [show ((⟨[-1], 1 + (-4:ℝ), 1, ()⟩ : McState Unit)).cfg = [-1] from rfl, hHm1]
  norm_num
